import Mathlib

/-!
Shallow embedding of the GitScope analyzer (`apps/ui/src/git/analyzer.ts`)
and the parts of the store data model it uses
(`apps/ui/src/app/store.ts`), together with proofs settling the frozen
claims about the analyzer.

Modelling conventions:
* JavaScript strings are Lean `String`s; character-level work is done on
  `List Char` via `String.data`.  JS whitespace (`\s`, `trim`) is modelled
  by `Char.isWhitespace` (space, tab, LF, CR) — the inputs at issue are
  ASCII.  `toLowerCase` is modelled on the ASCII range.
* A JS `Map` (and a plain object used as a string-keyed record) is an
  association list in insertion order: `set` overwrites the value in
  place for an existing key and appends otherwise, `keys`/`values`
  iterate in that order — exactly the observable JS semantics.
* JS numbers holding byte counts, epoch seconds/milliseconds and
  histogram counts are `Nat`; the one fractional value
  (`avgEventsPerDay`, a division rounded to two decimals) is `ℚ` with
  `Math.round x = ⌊x + 1/2⌋`.
* Regexes are embedded as explicit backtracking matchers with greedy
  quantifiers trying longest-first — the standard JS semantics.
* `async`/`await` in the source is pure sequencing over an in-memory
  index; it is modelled by ordinary function application.
-/

namespace GitScope

/- ===== JS string primitives ===== -/

/-- JS whitespace test used for `\s` and `trim` (ASCII fragment). -/
def wsCl (c : Char) : Bool := c.isWhitespace

/-- Character class `[0-9a-f]` under the `i` flag. -/
def hexCI (c : Char) : Bool :=
  ('0' ≤ c && c ≤ '9') || ('a' ≤ c && c ≤ 'f') || ('A' ≤ c && c ≤ 'F')

/-- Character class `\d`. -/
def isDigitB (c : Char) : Bool := '0' ≤ c && c ≤ '9'

/-- JS regex `.` : any character except a line terminator. -/
def dotCl (c : Char) : Bool := !(c = '\n' || c = '\r')

/-- Character class `[^>]`. -/
def notGtCl (c : Char) : Bool := !(c = '>')

/-- ASCII lowering of one character, as `toLowerCase` does on ASCII. -/
def lowerChar (c : Char) : Char :=
  if 'A' ≤ c && c ≤ 'Z' then Char.ofNat (c.toNat + 32) else c

/-- ASCII `String.toLowerCase`. -/
def lowerStr (s : String) : String := String.mk (s.data.map lowerChar)

/-- JS `String.prototype.trim` on a character list. -/
def trimChars (l : List Char) : List Char :=
  ((l.dropWhile wsCl).reverse.dropWhile wsCl).reverse

/-- JS `String.prototype.trim`. -/
def trimStr (s : String) : String := String.mk (trimChars s.data)

/-- Drop one trailing carriage return, if present. -/
def dropTrailingCR (s : String) : String :=
  if s.data.getLast? = some '\r' then String.mk s.data.dropLast else s

/-- Split a character list at every newline (the splitting skeleton of
JS `split`: `n` separators yield `n + 1` pieces). -/
def splitNl : List Char → List (List Char)
  | [] => [[]]
  | c :: rest =>
    match splitNl rest with
    | [] => [[c]]
    | x :: xs => if c = '\n' then [] :: x :: xs else (c :: x) :: xs

/-- JS `text.split(/\r?\n/)`: split at newlines, each piece shedding one
trailing CR. -/
def splitLines (text : String) : List String :=
  (splitNl text.data).map (fun l => dropTrailingCR (String.mk l))

/-- Maximal non-whitespace runs of a character list; on a trimmed string
this is exactly JS `s.split(/\s+/)`. -/
def wsTokensAux : List Char → List Char → List (List Char)
  | [], acc => if acc.isEmpty then [] else [acc.reverse]
  | c :: rest, acc =>
    if wsCl c then
      if acc.isEmpty then wsTokensAux rest [] else acc.reverse :: wsTokensAux rest []
    else wsTokensAux rest (c :: acc)

def wsTokens (l : List Char) : List (List Char) := wsTokensAux l []

/-- First whitespace-delimited token of an (already trimmed) string:
JS `s.split(/\s+/)[0]` there. -/
def firstTokenStr (s : String) : String :=
  String.mk (s.data.takeWhile (fun c => !wsCl c))

/-- Prefix test via character lists (JS `String.prototype.startsWith`). -/
def strStartsWith (s pre : String) : Bool := pre.data.isPrefixOf s.data

/-- Suffix of a string from character position `n` (JS `s.slice(n)`). -/
def strDrop (s : String) (n : Nat) : String := String.mk (s.data.drop n)

/- ===== JS Map / string-keyed record ===== -/

/-- A JS `Map<string, α>` (also a plain object used as a record):
association list in insertion order. -/
abbrev JSMap (α : Type) := List (String × α)

/-- JS `Map.prototype.set`: overwrite in place, else append. -/
def JSMap.set (m : JSMap α) (k : String) (v : α) : JSMap α :=
  if m.any (fun p => p.1 == k) then
    m.map (fun p => if p.1 == k then (k, v) else p)
  else m ++ [(k, v)]

/-- JS `Map.prototype.get` (`undefined` becomes `none`). -/
def JSMap.get (m : JSMap α) (k : String) : Option α :=
  (m.find? (fun p => p.1 == k)).map (fun p => p.2)

/- ===== Data model (store.ts) ===== -/

/-- The slice of a DOM `File` the analyzer reads: its byte size and its
text content (`file.size`, `await file.text()`). -/
structure GFile where
  size : Nat
  content : String
deriving DecidableEq, Repr

/-- `FileIndex` from store.ts: normalized path → file, plus a running
byte total. -/
structure FileIndex where
  byPath : JSMap GFile
  totalBytes : Nat
deriving DecidableEq, Repr

/-- `GitHead` from store.ts: symbolic (`type: "ref"`) or detached. -/
inductive GitHead where
  | ref (value : String)
  | detached (value : String)
deriving DecidableEq, Repr

/-- One parsed reflog line (`ReflogEntry` from store.ts). -/
structure ReflogEntry where
  oldSha : String
  newSha : String
  authorName : String
  authorEmail : String
  /-- epoch milliseconds -/
  ts : Nat
  tz : String
  msg : String
  ref : String
deriving DecidableEq, Repr

/-- One remote record produced by the config parser. -/
structure Remote where
  name : String
  fetch : Option String := none
  push : Option String := none
deriving DecidableEq, Repr

/-- `GitConfigSnapshot`: remotes plus optional raw text. -/
structure GitConfigSnapshot where
  remotes : List Remote
  raw : Option String := none
deriving DecidableEq, Repr

/-- `RepoStats` from store.ts.  Optional JS fields (`undefined`) are
`Option`; the rounded average is `ℚ`. -/
structure RepoStats where
  totalFiles : Nat
  totalBytes : Nat
  totalRefs : Nat
  branches : Nat
  tags : Nat
  remotes : Nat
  events : Nat
  firstActivityTs : Option Nat
  lastActivityTs : Option Nat
  activeDays : Option Nat
  avgEventsPerDay : Option ℚ
  authors : JSMap Nat
  eventTypes : JSMap Nat
deriving DecidableEq, Repr

/-- `RepoSnapshot` from store.ts (identity is opaque to the core and is
modelled as a string label). -/
structure RepoSnapshot where
  identity : String
  head : Option GitHead
  refs : JSMap String
  reflogs : JSMap (List ReflogEntry)
  config : Option GitConfigSnapshot
  commits : List ReflogEntry
  stats : RepoStats
deriving DecidableEq, Repr

/-- `AnalyzeOptions` (both fields optional in the source). -/
structure AnalyzeOptions where
  includeRawConfig : Option Bool := none
  maxReflogEntriesPerRef : Option Nat := none
deriving DecidableEq, Repr

/- ===== Path normalization (analyzer.ts normalizeGitPath) ===== -/

/-- Strip one occurrence of a literal prefix, if present. -/
def stripPrefixOnce (pre l : List Char) : List Char :=
  if pre.isPrefixOf l then l.drop pre.length else l

/-- Replace runs of two or more slashes by one (regex `\/{2,}` → `/`). -/
def collapseSlashes : List Char → List Char
  | [] => []
  | [c] => [c]
  | a :: b :: rest =>
    if a = '/' && b = '/' then collapseSlashes (b :: rest)
    else a :: collapseSlashes (b :: rest)

/-- `normalizeGitPath` from analyzer.ts: unify separators, strip one
leading `./`, strip leading slashes, collapse slash runs, strip trailing
slashes, strip one leading `.git/`, trim. -/
def normalizeGitPath (path : String) : String :=
  if path = "" then "" else
  let p0 := path.data.map (fun c => if c = '\\' then '/' else c)
  let p1 := stripPrefixOnce ['.', '/'] p0
  let p2 := p1.dropWhile (fun c => c = '/')
  let p3 := collapseSlashes p2
  let p4 := (p3.reverse.dropWhile (fun c => c = '/')).reverse
  let p5 := stripPrefixOnce ['.', 'g', 'i', 't', '/'] p4
  String.mk (trimChars p5)

/-- `normalizeIndex` from analyzer.ts: re-key every entry by its
normalized path (dropping entries that normalize to the empty string)
and recompute `totalBytes` as the running sum of the surviving raw
entries' sizes. -/
def normalizeIndex (index : FileIndex) : FileIndex :=
  let r := index.byPath.foldl
    (fun (st : JSMap GFile × Nat) kv =>
      let p := normalizeGitPath kv.1
      if p = "" then st
      else (st.1.set p kv.2, st.2 + kv.2.size))
    ([], 0)
  { byPath := r.1, totalBytes := r.2 }

/- ===== Small utilities (analyzer.ts bottom section) ===== -/

/-- `isSha` from analyzer.ts: `/^[0-9a-f]{7,40}$/i.test(s.trim())`, with
falsy (`undefined` / empty) input rejected. -/
def isSha (s : Option String) : Bool :=
  match s with
  | none => false
  | some s =>
    let t := trimChars s.data
    decide (7 ≤ t.length) && decide (t.length ≤ 40) && t.all hexCI

/-- `safeInt` from analyzer.ts, on the decimal-digit strings the
analyzer applies it to (`parseInt(s, 10)`). -/
def safeInt (s : String) : Nat :=
  s.data.foldl (fun a c => a * 10 + (c.toNat - 48)) 0

/-- `clampInt` from analyzer.ts (for the `Nat` range used here). -/
def clampInt (n lo hi : Nat) : Nat := Nat.min hi (Nat.max lo n)

/-- `round2` from analyzer.ts: `Math.round(n * 100) / 100`, with
`Math.round x = ⌊x + 1/2⌋`. -/
def round2 (q : ℚ) : ℚ := ((Int.floor (q * 100 + 1/2) : ℤ) : ℚ) / 100

/-- `formatAuthorKey` from analyzer.ts. -/
def formatAuthorKey (name email : String) : String :=
  let n := trimStr name
  let e := lowerStr (trimStr email)
  if n ≠ "" then n ++ " <" ++ e ++ ">" else "<" ++ e ++ ">"

/- ===== Backtracking regex combinators (JS semantics) ===== -/

/-- Try `k n`, `k (n-1)`, …, `k lo` in that order; first success wins.
This is the backtracking order of a greedy quantifier. -/
def tryDesc (lo : Nat) (k : Nat → Option α) : Nat → Option α
  | 0 => if lo = 0 then k 0 else none
  | n + 1 =>
    if n + 1 < lo then none
    else
      match k (n + 1) with
      | some r => some r
      | none => tryDesc lo k n

/-- Greedy bounded character-class quantifier `[p]{lo,hi}` followed by
continuation `k taken rest`: longest candidate first, backtracking down
to `lo`. -/
def greedyClass (lo hi : Nat) (p : Char → Bool) (l : List Char)
    (k : List Char → List Char → Option α) : Option α :=
  tryDesc lo (fun n => k (l.take n) (l.drop n)) (Nat.min hi (l.takeWhile p).length)

/-- Match one literal character then continue. -/
def eatChar (c : Char) (l : List Char) (k : List Char → Option α) : Option α :=
  match l with
  | x :: rest => if x = c then k rest else none
  | [] => none

/- ===== Reflog line regex (analyzer.ts parseReflogText) ===== -/

/-- The anchored reflog prefix regex from `parseReflogText`:
`^([0-9a-f]{7,40})\s+([0-9a-f]{7,40})\s+(.+)\s+<([^>]+)>\s+(\d+)\s+([+-]\d{4})\s*$`
with the `i` flag, as a backtracking matcher returning the six capture
groups. -/
def reflogMatch (l : List Char) :
    Option (String × String × String × String × String × String) :=
  greedyClass 7 40 hexCI l (fun g1 r1 =>
  greedyClass 1 r1.length wsCl r1 (fun _ r2 =>
  greedyClass 7 40 hexCI r2 (fun g2 r3 =>
  greedyClass 1 r3.length wsCl r3 (fun _ r4 =>
  greedyClass 1 r4.length dotCl r4 (fun g3 r5 =>
  greedyClass 1 r5.length wsCl r5 (fun _ r6 =>
  eatChar '<' r6 (fun r7 =>
  greedyClass 1 r7.length notGtCl r7 (fun g4 r8 =>
  eatChar '>' r8 (fun r9 =>
  greedyClass 1 r9.length wsCl r9 (fun _ r10 =>
  greedyClass 1 r10.length isDigitB r10 (fun g5 r11 =>
  greedyClass 1 r11.length wsCl r11 (fun _ r12 =>
  match r12 with
  | s :: d1 :: d2 :: d3 :: d4 :: tail =>
    if (s = '+' || s = '-') && isDigitB d1 && isDigitB d2 && isDigitB d3 &&
        isDigitB d4 && tail.all wsCl then
      some (String.mk g1, String.mk g2, String.mk g3, String.mk g4,
            String.mk g5, String.mk [s, d1, d2, d3, d4])
    else none
  | _ => none))))))))))))

/- ===== HEAD regex (analyzer.ts parseHead) ===== -/

/-- The symbolic-HEAD regex `^ref:\s+(.+)\s*$` (flag `i`) applied to the
trimmed HEAD text.  Because the input is trimmed, the trailing `\s*$`
can only match the empty string, so a match exists exactly when the text
is `ref:` (case-insensitive), at least one whitespace character, then a
non-empty remainder free of line terminators; the capture is that
remainder. -/
def headRefMatch (txt : String) : Option String :=
  let d := txt.data
  if (d.take 4).map lowerChar = ['r', 'e', 'f', ':'] then
    let rest0 := d.drop 4
    match rest0 with
    | c :: _ =>
      if wsCl c then
        let v := rest0.dropWhile wsCl
        if v ≠ [] && v.all dotCl then some (String.mk v) else none
      else none
    | [] => none
  else none

/- ===== Readers (analyzer.ts) ===== -/

/-- `getFile` from analyzer.ts: look the path up under its normalized
key. -/
def getFile (files : FileIndex) (path : String) : Option GFile :=
  JSMap.get files.byPath (normalizeGitPath path)

/-- `listPaths` from analyzer.ts: every key equal to the normalized
prefix or starting with it plus `/`, in key order. -/
def listPaths (files : FileIndex) (pre : String) : List String :=
  let pfx := normalizeGitPath pre
  (files.byPath.map (fun p => p.1)).filter
    (fun key => key == pfx || strStartsWith key (pfx ++ "/"))

/- ===== HEAD parsing ===== -/

/-- `parseHead` from analyzer.ts. -/
def parseHead (files : FileIndex) : Option GitHead :=
  match getFile files "HEAD" with
  | none => none
  | some f =>
    let txt := trimStr f.content
    match headRefMatch txt with
    | some v => some (GitHead.ref (trimStr v))
    | none =>
      let sha := trimStr (firstTokenStr txt)
      if isSha (some sha) then some (GitHead.detached sha) else none

/- ===== Refs parsing ===== -/

/-- `parsePackedRefs` from analyzer.ts: skip blanks, `#` comments and
`^` peeled lines; other lines are whitespace-split and contribute
`(ref, sha)` when they have at least two tokens and a syntactically
valid id. -/
def parsePackedRefs (text : String) : List (String × String) :=
  (splitLines text).foldr
    (fun line out =>
      let s := trimStr line
      if s = "" then out
      else if strStartsWith s "#" then out
      else if strStartsWith s "^" then out
      else
        match wsTokens s.data with
        | sha :: ref :: _ =>
          if isSha (some (String.mk sha)) && String.mk ref ≠ "" then
            (String.mk ref, String.mk sha) :: out
          else out
        | _ => out)
    []

/-- The loose-ref sha extraction in `parseRefs`:
`(await readText(f)).trim().split(/\s+/)[0]?.trim()`. -/
def looseShaOf (f : GFile) : String :=
  trimStr (firstTokenStr (trimStr f.content))

/-- Phase 1 of `parseRefs`: write the packed-refs entries (if the file
exists). -/
def parseRefsPacked (files : FileIndex) (refs : JSMap String) : JSMap String :=
  match getFile files "packed-refs" with
  | none => refs
  | some f => (parsePackedRefs f.content).foldl (fun m p => m.set p.1 p.2) refs

/-- Phase 2 of `parseRefs`: iterate the index keys in order and write
every loose `refs/**` file whose first token is a valid id. -/
def parseRefsLoose (files : FileIndex) (refs : JSMap String) : JSMap String :=
  files.byPath.foldl
    (fun m kv =>
      if strStartsWith kv.1 "refs/" then
        let sha := looseShaOf kv.2
        if isSha (some sha) then m.set kv.1 sha else m
      else m)
    refs

/-- The five special single-file refs probed by `parseRefs`. -/
def specialRefNames : List String :=
  ["ORIG_HEAD", "FETCH_HEAD", "MERGE_HEAD", "CHERRY_PICK_HEAD", "REBASE_HEAD"]

/-- Phase 3 of `parseRefs`: probe the special refs. -/
def parseRefsSpecials (files : FileIndex) (refs : JSMap String) : JSMap String :=
  specialRefNames.foldl
    (fun m sp =>
      match getFile files sp with
      | none => m
      | some f =>
        let sha := looseShaOf f
        if isSha (some sha) then m.set sp sha else m)
    refs

/-- `parseRefs` from analyzer.ts: packed entries first, then loose
`refs/**` entries, then the five specials — later writers win. -/
def parseRefs (files : FileIndex) : JSMap String :=
  parseRefsSpecials files (parseRefsLoose files (parseRefsPacked files []))

/- ===== Config parsing ===== -/

/-- The section-header regex `^\[(.+?)\]$` on a trimmed line: a match
exists exactly when the line starts with `[`, ends with `]` and has a
non-empty interior free of line terminators; the capture is everything
between the first `[` and the final `]`. -/
def sectionMatch (t : List Char) : Option (List Char) :=
  match t with
  | '[' :: rest =>
    if rest.getLast? = some ']' then
      let mid := rest.dropLast
      if mid ≠ [] && mid.all dotCl then some mid else none
    else none
  | _ => none

/-- The remote-section regex `^remote\s+"([^"]+)"$` (flag `i`) on the
section name: `remote`, whitespace, then a double-quoted non-empty name
without inner quotes, end-anchored. -/
def remoteSectionMatch (sec : List Char) : Option String :=
  if (sec.take 6).map lowerChar = ['r', 'e', 'm', 'o', 't', 'e'] then
    match sec.drop 6 with
    | c :: _ =>
      if wsCl c then
        match (sec.drop 6).dropWhile wsCl with
        | '\"' :: rest =>
          match rest.getLast? with
          | some '\"' =>
            let name := rest.dropLast
            if name ≠ [] && name.all (fun c => !(c = '\"')) then
              some (String.mk name)
            else none
          | _ => none
        | _ => none
      else none
    | [] => none
  else none

/-- Character class `[A-Za-z0-9.\-]` of the key/value regex. -/
def keyCl (c : Char) : Bool :=
  ('A' ≤ c && c ≤ 'Z') || ('a' ≤ c && c ≤ 'z') || ('0' ≤ c && c ≤ '9') ||
    c = '.' || c = '-'

/-- The key/value regex `^([A-Za-z0-9.\-]+)\s*=\s*(.*)$` on a trimmed
line.  Because the key class contains neither whitespace nor `=`, the
match is deterministic: maximal key run, optional whitespace, `=`,
optional whitespace, rest of the line (which must be free of line
terminators). -/
def kvMatch (t : List Char) : Option (String × String) :=
  let key := t.takeWhile keyCl
  if key = [] then none
  else
    match (t.drop key.length).dropWhile wsCl with
    | '=' :: rest =>
      let v := rest.dropWhile wsCl
      if v.all dotCl then some (String.mk key, String.mk v) else none
    | _ => none

/-- Fold state of `parseGitConfigRemotes`. -/
structure CfgState where
  currentRemote : Option Remote
  remotes : List Remote
deriving DecidableEq, Repr

/-- One line of the `parseGitConfigRemotes` loop. -/
def cfgStep (st : CfgState) (line : String) : CfgState :=
  let trimmed := trimStr line
  if trimmed = "" then st
  else if strStartsWith trimmed ";" then st
  else if strStartsWith trimmed "#" then st
  else
    match sectionMatch trimmed.data with
    | some sectionName =>
      let remotes :=
        match st.currentRemote with
        | some r => st.remotes ++ [r]
        | none => st.remotes
      match remoteSectionMatch sectionName with
      | some name => { currentRemote := some { name := name }, remotes := remotes }
      | none => { currentRemote := none, remotes := remotes }
    | none =>
      match st.currentRemote with
      | some cur =>
        match kvMatch trimmed.data with
        | some (k, v) =>
          let key := lowerStr k
          let cur := if key = "url" || key = "fetch" then { cur with fetch := some v } else cur
          let cur := if key = "pushurl" then { cur with push := some v } else cur
          { st with currentRemote := some cur }
        | none => st
      | none => st

/-- `parseGitConfigRemotes` from analyzer.ts: line loop, commit of the
trailing open remote, then name-deduplication keeping the last-seen
record (in first-occurrence key order, as a JS `Map` iterates). -/
def parseGitConfigRemotes (raw : String) : List Remote :=
  let st := (splitLines raw).foldl cfgStep { currentRemote := none, remotes := [] }
  let remotes :=
    match st.currentRemote with
    | some r => st.remotes ++ [r]
    | none => st.remotes
  let byName : JSMap Remote := remotes.foldl (fun m r => m.set r.name r) []
  byName.map (fun p => p.2)

/-- `parseConfig` from analyzer.ts. -/
def parseConfig (files : FileIndex) (includeRaw : Bool) : Option GitConfigSnapshot :=
  match getFile files "config" with
  | none => none
  | some f =>
    let remotes := parseGitConfigRemotes f.content
    some { remotes := remotes, raw := if includeRaw then some f.content else none }

/- ===== Reflogs parsing ===== -/

/-- One line of the `parseReflogText` loop: split at the first tab, run
the anchored prefix regex on the trimmed left side, then apply the id
and timestamp guards.  A falsy (zero) timestamp is rejected. -/
def parseReflogLine (ref : String) (line : String) : Option ReflogEntry :=
  let left := line.data.takeWhile (fun c => !(c = '\t'))
  let msg :=
    if left.length = line.data.length then ""
    else String.mk (line.data.drop (left.length + 1))
  match reflogMatch (trimChars left) with
  | none => none
  | some (m1, m2, m3, m4, m5, m6) =>
    let tsSeconds := safeInt m5
    if isSha (some m1) && isSha (some m2) && decide (tsSeconds ≠ 0) then
      some { oldSha := m1, newSha := m2, authorName := trimStr m3,
             authorEmail := trimStr m4, ts := tsSeconds * 1000, tz := m6,
             msg := trimStr msg, ref := ref }
    else none

/-- The line loop of `parseReflogText`, carrying the number of entries
emitted so far; the loop breaks right after the entry that reaches the
limit. -/
def parseReflogGo (ref : String) (limit : Nat) : List String → Nat → List ReflogEntry
  | [], _ => []
  | line :: rest, count =>
    if line = "" then parseReflogGo ref limit rest count
    else
      match parseReflogLine ref line with
      | none => parseReflogGo ref limit rest count
      | some e =>
        if limit ≤ count + 1 then [e]
        else e :: parseReflogGo ref limit rest (count + 1)

/-- `parseReflogText` from analyzer.ts. -/
def parseReflogText (ref : String) (text : String) (limit : Nat) : List ReflogEntry :=
  parseReflogGo ref limit (splitLines text) 0

/-- `parseReflogs` from analyzer.ts: `logs/HEAD` first (under the key
`HEAD`), then every `logs/refs/**` file under its path with the leading
`logs/` removed. -/
def parseReflogs (files : FileIndex) (maxEntriesPerRef : Nat) :
    JSMap (List ReflogEntry) :=
  let out : JSMap (List ReflogEntry) := []
  let out :=
    match getFile files "logs/HEAD" with
    | some f => out.set "HEAD" (parseReflogText "HEAD" f.content maxEntriesPerRef)
    | none => out
  (listPaths files "logs/refs").foldl
    (fun m path =>
      match JSMap.get files.byPath path with
      | none => m
      | some f =>
        let ref := if strStartsWith path "logs/" then strDrop path 5 else path
        m.set ref (parseReflogText ref f.content maxEntriesPerRef))
    out

/- ===== Commit/event list ===== -/

/-- The dedup key of `buildCommitList`: the template string
`newSha|ts|authorEmail|msg`. -/
def dedupKey (e : ReflogEntry) : String :=
  e.newSha ++ "|" ++ toString e.ts ++ "|" ++ e.authorEmail ++ "|" ++ e.msg

/-- The seen-set deduplication loop of `buildCommitList` over the
flattened entry list. -/
def dedupAux : List ReflogEntry → List String → List ReflogEntry
  | [], _ => []
  | e :: rest, seen =>
    if dedupKey e ∈ seen then dedupAux rest seen
    else e :: dedupAux rest (dedupKey e :: seen)

/-- Stable insertion into a descending-by-timestamp list: the new entry
goes after every element whose timestamp is not smaller. -/
def insertTsDesc (e : ReflogEntry) : List ReflogEntry → List ReflogEntry
  | [] => [e]
  | x :: xs => if x.ts < e.ts then e :: x :: xs else x :: insertTsDesc e xs

/-- The stable descending sort `out.sort((a, b) => b.ts - a.ts)` of
`buildCommitList` (ECMAScript sort is stable; a stable sort's output is
the unique descending reordering that keeps equal-timestamp entries in
input order, realized here by insertion sort). -/
def sortTsDesc (l : List ReflogEntry) : List ReflogEntry :=
  l.foldl (fun acc e => insertTsDesc e acc) []

/-- `buildCommitList` from analyzer.ts: flatten the per-ref entry lists
in map-value order, drop entries whose dedup key was already seen, then
sort by timestamp descending (stable). -/
def buildCommitList (reflogs : JSMap (List ReflogEntry)) : List ReflogEntry :=
  sortTsDesc (dedupAux (reflogs.map (fun p => p.2)).flatten [])

/- ===== Stats ===== -/

/-- Input record of `computeStats`. -/
structure StatsInput where
  totalFiles : Nat
  totalBytes : Nat
  refs : JSMap String
  reflogs : JSMap (List ReflogEntry)
  commits : List ReflogEntry
deriving DecidableEq, Repr

/-- Increment of a JS object histogram: `m[k] = (m[k] ?? 0) + 1`. -/
def bumpCount (m : JSMap Nat) (k : String) : JSMap Nat :=
  match JSMap.get m k with
  | some n => m.set k (n + 1)
  | none => m.set k 1

/-- The UTC midnight key
`Date.UTC(d.getUTCFullYear(), d.getUTCMonth(), d.getUTCDate())` of an
epoch-millisecond timestamp: its day boundary in milliseconds. -/
def dayKeyMs (ts : Nat) : Nat := ts / 86400000 * 86400000

/-- `computeActiveDays` from analyzer.ts: number of distinct UTC day
keys of the events, `undefined` when there are none (a JS `Set`
accumulates the distinct keys). -/
def computeActiveDays (events : List ReflogEntry) : Option Nat :=
  if events = [] then none
  else
    some ((events.foldl
      (fun days e =>
        let key := dayKeyMs e.ts
        if key ∈ days then days else days ++ [key])
      []).length)

/-- State of the per-event loop in `computeStats`. -/
structure StatsLoopState where
  firstActivityTs : Option Nat
  lastActivityTs : Option Nat
  authors : JSMap Nat
  eventTypes : JSMap Nat
deriving DecidableEq, Repr

/-- `classifyReflogMessage` from analyzer.ts: lowercase and trim, test
the literal action-word prefixes in source order, fall back to the
`^([a-z0-9\-]+)\s*:` capture, else `other` / `unknown`. -/
def classifyReflogMessage (msg : String) : String :=
  let s := lowerStr (trimStr msg)
  if strStartsWith s "commit" then "commit"
  else if strStartsWith s "checkout" then "checkout"
  else if strStartsWith s "merge" then "merge"
  else if strStartsWith s "rebase" then "rebase"
  else if strStartsWith s "reset" then "reset"
  else if strStartsWith s "pull" then "pull"
  else if strStartsWith s "fetch" then "fetch"
  else if strStartsWith s "cherry-pick" || strStartsWith s "cherrypick" then "cherry-pick"
  else if strStartsWith s "amend" then "amend"
  else
    let run := s.data.takeWhile (fun c => ('a' ≤ c && c ≤ 'z') || isDigitB c || c = '-')
    if run ≠ [] && ((s.data.drop run.length).dropWhile wsCl).head? = some ':' then
      String.mk run
    else if s ≠ "" then "other"
    else "unknown"

/-- One step of the per-event loop of `computeStats`. -/
def statsLoopStep (st : StatsLoopState) (e : ReflogEntry) : StatsLoopState :=
  { firstActivityTs :=
      match st.firstActivityTs with
      | none => some e.ts
      | some t => some (Nat.min t e.ts),
    lastActivityTs :=
      match st.lastActivityTs with
      | none => some e.ts
      | some t => some (Nat.max t e.ts),
    authors := bumpCount st.authors (formatAuthorKey e.authorName e.authorEmail),
    eventTypes := bumpCount st.eventTypes (classifyReflogMessage e.msg) }

/-- `computeStats` from analyzer.ts. -/
def computeStats (input : StatsInput) : RepoStats :=
  let refKeys := input.refs.map (fun p => p.1)
  let branches := (refKeys.filter (fun r => strStartsWith r "refs/heads/")).length
  let tags := (refKeys.filter
    (fun r => !strStartsWith r "refs/heads/" && strStartsWith r "refs/tags/")).length
  let remotes := (refKeys.filter
    (fun r => !strStartsWith r "refs/heads/" && !strStartsWith r "refs/tags/" &&
      strStartsWith r "refs/remotes/")).length
  let loop := input.commits.foldl statsLoopStep
    { firstActivityTs := none, lastActivityTs := none, authors := [], eventTypes := [] }
  let activeDays := computeActiveDays input.commits
  let avgEventsPerDay : Option ℚ :=
    match activeDays with
    | some d => if 0 < d then some (round2 ((input.commits.length : ℚ) / (d : ℚ))) else none
    | none => none
  { totalFiles := input.totalFiles,
    totalBytes := input.totalBytes,
    totalRefs := input.refs.length,
    branches := branches,
    tags := tags,
    remotes := remotes,
    events := input.commits.length,
    firstActivityTs := loop.firstActivityTs,
    lastActivityTs := loop.lastActivityTs,
    activeDays := activeDays,
    avgEventsPerDay := avgEventsPerDay,
    authors := loop.authors,
    eventTypes := loop.eventTypes }

/- ===== Top-level entry ===== -/

/-- `analyzeGitIndex` from analyzer.ts (the pipeline is pure in this
model, so the top-level try/catch wrapper has nothing to catch). -/
def analyzeGitIndex (index : FileIndex) (identity : String)
    (options : AnalyzeOptions := {}) : RepoSnapshot :=
  let includeRawConfig := options.includeRawConfig.getD false
  let maxReflogEntriesPerRef := clampInt (options.maxReflogEntriesPerRef.getD 10000) 100 200000
  let files := normalizeIndex index
  let head := parseHead files
  let refs := parseRefs files
  let config := parseConfig files includeRawConfig
  let reflogs := parseReflogs files maxReflogEntriesPerRef
  let commits := buildCommitList reflogs
  let stats := computeStats
    { totalFiles := files.byPath.length,
      totalBytes := files.totalBytes,
      refs := refs,
      reflogs := reflogs,
      commits := commits }
  { identity := identity, head := head, refs := refs, reflogs := reflogs,
    config := config, commits := commits, stats := stats }

/- ===== Specification-side definitions =====

These definitions follow the wording of the specification (not the
source); the refinement theorems below compare them with the source
translations above. -/

/-- Message classification as worded in the spec (§4.7): the eight
literal action words in the listed order with `amend` among them, then
`cherry-pick`/`cherrypick`, then the `^([a-z0-9-]+)\s*:` capture, then
`other`/`unknown`. -/
def classifySpec (msg : String) : String :=
  let s := lowerStr (trimStr msg)
  if strStartsWith s "commit" then "commit"
  else if strStartsWith s "checkout" then "checkout"
  else if strStartsWith s "merge" then "merge"
  else if strStartsWith s "rebase" then "rebase"
  else if strStartsWith s "reset" then "reset"
  else if strStartsWith s "pull" then "pull"
  else if strStartsWith s "fetch" then "fetch"
  else if strStartsWith s "amend" then "amend"
  else if strStartsWith s "cherry-pick" || strStartsWith s "cherrypick" then "cherry-pick"
  else
    let run := s.data.takeWhile (fun c => ('a' ≤ c && c ≤ 'z') || isDigitB c || c = '-')
    if run ≠ [] && ((s.data.drop run.length).dropWhile wsCl).head? = some ':' then
      String.mk run
    else if s ≠ "" then "other"
    else "unknown"

/-- First-occurrence deduplication as worded in the spec (§4.6): keep an
entry and drop every later entry with the same dedup key. -/
def dedupSpec : List ReflogEntry → List ReflogEntry
  | [] => []
  | e :: rest =>
    e :: dedupSpec (rest.filter (fun x => !decide (dedupKey x = dedupKey e)))
termination_by l => l.length
decreasing_by
  simp only [List.length_cons]
  exact Nat.lt_succ_of_le (List.length_filter_le _ _)

/-- The equal-timestamp subsequence of an event list. -/
def filterTs (t : Nat) (l : List ReflogEntry) : List ReflogEntry :=
  l.filter (fun x => x.ts == t)

/-- The id shape of the spec's invariant: a full match of
`^[0-9a-f]{7,40}$` under the `i` flag (no trimming). -/
def shaShape (s : String) : Bool :=
  decide (7 ≤ s.data.length) && decide (s.data.length ≤ 40) && s.data.all hexCI

/-- Descending order by timestamp between two entries. -/
def tsGE (a b : ReflogEntry) : Prop := b.ts ≤ a.ts

/- ===== Helper lemmas ===== -/

/-- Two strings that are both prefixes of a third are comparable. -/
lemma prefixes_comparable {s a b : String}
    (ha : strStartsWith s a = true) (hb : strStartsWith s b = true) :
    a.data <+: b.data ∨ b.data <+: a.data := by
  unfold strStartsWith at ha hb
  rw [ List.isPrefixOf_iff_prefix] at ha hb
  exact List.prefix_or_prefix_of_prefix ha hb

/-- Congruence in the else-branch of a conditional. -/
lemma ite_else_congr {c : Prop} [Decidable c] (a : α) {x y : α} (h : x = y) :
    (if c then a else x) = (if c then a else y) := by rw [h]

/-- Running byte total of `normalizeIndex`: the sum of the sizes of the
raw entries whose normalized path is non-empty. -/
lemma normalizeIndex_bytes_aux (l : List (String × GFile)) :
    ∀ (m : JSMap GFile) (b : Nat),
      (l.foldl
        (fun (st : JSMap GFile × Nat) kv =>
          let p := normalizeGitPath kv.1
          if p = "" then st
          else (st.1.set p kv.2, st.2 + kv.2.size)) (m, b)).2 =
      b + ((l.filter (fun kv => normalizeGitPath kv.1 != "")).map
            (fun kv => kv.2.size)).sum := by
  induction l with
  | nil => intro m b; simp
  | cons kv rest ih =>
    intro m b
    by_cases h : normalizeGitPath kv.1 = ""
    · simp only [List.foldl_cons, List.filter_cons, h]
      rw [ih]
      simp [h]
    · simp only [List.foldl_cons, List.filter_cons, h]
      rw [ih]
      simp [h, Nat.add_assoc]

/-- Entries agreeing on id, timestamp and message but with different
(verbatim) author emails have different dedup keys. -/
lemma dedupKey_ne_of_email_ne {e1 e2 : ReflogEntry}
    (hsha : e1.newSha = e2.newSha) (hts : e1.ts = e2.ts) (hmsg : e1.msg = e2.msg)
    (hem : e1.authorEmail ≠ e2.authorEmail) : dedupKey e1 ≠ dedupKey e2 := by
  unfold dedupKey
  rw [hsha, hts, hmsg]
  intro h
  apply hem
  have hd := congrArg String.data h
  simp only [String.data_append, List.append_assoc] at hd
  have hd := List.append_cancel_left hd
  have hd := List.append_cancel_left hd
  have hd := List.append_cancel_left hd
  have hd := List.append_cancel_left hd
  have hd := List.append_cancel_right hd
  exact String.ext hd

/-- The distinct-accumulator fold of `computeActiveDays` collects
exactly the set of encountered keys. -/
lemma daysFold_toFinset (l : List Nat) :
    ∀ acc : List Nat,
      (l.foldl (fun days k => if k ∈ days then days else days ++ [k]) acc).toFinset =
        acc.toFinset ∪ l.toFinset := by
  induction l with
  | nil => intro acc; simp
  | cons k t ih =>
    intro acc
    simp only [List.foldl_cons]
    by_cases h : k ∈ acc
    · rw [if_pos h, ih]
      ext x
      simp only [Finset.mem_union, List.mem_toFinset, List.toFinset_cons,
        Finset.mem_insert]
      constructor
      · rintro (hx | hx)
        · exact Or.inl hx
        · exact Or.inr (Or.inr hx)
      · rintro (hx | hx | hx)
        · exact Or.inl hx
        · exact Or.inl (hx ▸ h)
        · exact Or.inr hx
    · rw [if_neg h, ih]
      ext x
      simp only [Finset.mem_union, List.mem_toFinset, List.toFinset_cons,
        Finset.mem_insert, List.mem_append, List.mem_singleton]
      tauto

/-- The distinct-accumulator fold of `computeActiveDays` keeps the
accumulator duplicate-free. -/
lemma daysFold_nodup (l : List Nat) :
    ∀ acc : List Nat, acc.Nodup →
      (l.foldl (fun days k => if k ∈ days then days else days ++ [k]) acc).Nodup := by
  induction l with
  | nil => intro acc h; exact h
  | cons k t ih =>
    intro acc h
    simp only [List.foldl_cons]
    by_cases hk : k ∈ acc
    · rw [if_pos hk]; exact ih acc h
    · rw [if_neg hk]
      refine ih (acc ++ [k]) ?_
      simp [List.nodup_append, h, hk]

/-- The seen-set deduplication loop equals the spec's first-occurrence
filter recursion, relative to an arbitrary set of already-seen keys. -/
lemma dedupAux_eq_dedupSpec (l : List ReflogEntry) :
    ∀ seen : List String,
      dedupAux l seen =
        dedupSpec (l.filter (fun e => !decide (dedupKey e ∈ seen))) := by
  induction l with
  | nil => intro seen; simp [dedupAux, dedupSpec]
  | cons e rest ih =>
    intro seen
    by_cases h : dedupKey e ∈ seen
    · rw [show dedupAux (e :: rest) seen = dedupAux rest seen from by
        simp [dedupAux, h]]
      rw [ih seen]
      congr 1
      simp [List.filter_cons, h]
    · rw [show dedupAux (e :: rest) seen =
          e :: dedupAux rest (dedupKey e :: seen) from by simp [dedupAux, h]]
      rw [ih (dedupKey e :: seen)]
      rw [show List.filter (fun x => !decide (dedupKey x ∈ seen)) (e :: rest) =
          e :: List.filter (fun x => !decide (dedupKey x ∈ seen)) rest from by
        simp [List.filter_cons, h]]
      rw [show dedupSpec (e :: rest.filter (fun x => !decide (dedupKey x ∈ seen))) =
          e :: dedupSpec ((rest.filter (fun x => !decide (dedupKey x ∈ seen))).filter
            (fun x => !decide (dedupKey x = dedupKey e))) from by
        simp [dedupSpec]]
      congr 1
      congr 1
      rw [List.filter_filter]
      apply List.filter_congr
      intro x _
      by_cases h1 : dedupKey x = dedupKey e <;>
        by_cases h2 : dedupKey x ∈ seen <;> simp [h1, h2]

/-- Membership in a stable insertion. -/
lemma mem_insertTsDesc {y e : ReflogEntry} {l : List ReflogEntry} :
    y ∈ insertTsDesc e l ↔ y = e ∨ y ∈ l := by
  induction l with
  | nil => simp [insertTsDesc]
  | cons x xs ih =>
    unfold insertTsDesc
    by_cases h : x.ts < e.ts
    · rw [if_pos h]
      exact List.mem_cons
    · rw [if_neg h]
      simp only [List.mem_cons, ih]
      tauto

/-- Stable insertion preserves the descending-by-timestamp order. -/
lemma pairwise_insertTsDesc {e : ReflogEntry} {l : List ReflogEntry}
    (h : l.Pairwise tsGE) : (insertTsDesc e l).Pairwise tsGE := by
  induction l with
  | nil => simp [insertTsDesc, List.pairwise_singleton]
  | cons x xs ih =>
    unfold insertTsDesc
    rw [List.pairwise_cons] at h
    by_cases hx : x.ts < e.ts
    · rw [if_pos hx]
      refine List.Pairwise.cons ?_ (List.Pairwise.cons h.1 h.2)
      intro y hy
      rcases List.mem_cons.mp hy with hy | hy
      · exact hy ▸ Nat.le_of_lt hx
      · exact Nat.le_trans (h.1 y hy) (Nat.le_of_lt hx)
    · rw [if_neg hx]
      refine List.Pairwise.cons ?_ (ih h.2)
      intro y hy
      rcases mem_insertTsDesc.mp hy with hy | hy
      · exact hy ▸ Nat.le_of_not_lt hx
      · exact h.1 y hy

/-- The insertion-sort fold of `sortTsDesc` yields a descending list. -/
lemma pairwise_sortTsDesc (l : List ReflogEntry) :
    (sortTsDesc l).Pairwise tsGE := by
  unfold sortTsDesc
  suffices h : ∀ acc : List ReflogEntry, acc.Pairwise tsGE →
      (l.foldl (fun acc e => insertTsDesc e acc) acc).Pairwise tsGE from
    h [] List.Pairwise.nil
  induction l with
  | nil => intro acc hacc; exact hacc
  | cons e rest ih =>
    intro acc hacc
    exact ih (insertTsDesc e acc) (pairwise_insertTsDesc hacc)

/-- An equal-timestamp subsequence is empty when every element is
strictly older. -/
lemma filterTs_eq_nil_of_lt {t : Nat} {l : List ReflogEntry}
    (h : ∀ y ∈ l, y.ts < t) : filterTs t l = [] := by
  induction l with
  | nil => rfl
  | cons x xs ih =>
    unfold filterTs
    rw [List.filter_cons_of_neg, ← filterTs, ih (fun y hy => h y (List.mem_cons_of_mem x hy))]
    simp only [beq_iff_eq]
    exact Nat.ne_of_lt (h x (List.mem_cons_self x xs))

/-- Splitting an equal-timestamp subsequence at its head. -/
lemma filterTs_cons (t : Nat) (x : ReflogEntry) (l : List ReflogEntry) :
    filterTs t (x :: l) =
      (if (x.ts == t) = true then [x] else []) ++ filterTs t l := by
  unfold filterTs
  rw [List.filter_cons]
  by_cases hxt : (x.ts == t) = true
  · rw [if_pos hxt, if_pos hxt]
    rfl
  · rw [if_neg hxt, if_neg hxt]
    rfl

/-- Effect of a stable insertion on an equal-timestamp subsequence of a
descending list: a new entry of that timestamp lands at its end. -/
lemma filterTs_insertTsDesc {t : Nat} {e : ReflogEntry} {l : List ReflogEntry}
    (h : l.Pairwise tsGE) :
    filterTs t (insertTsDesc e l) =
      if e.ts = t then filterTs t l ++ [e] else filterTs t l := by
  induction l with
  | nil =>
    unfold insertTsDesc filterTs
    by_cases ht : e.ts = t
    · rw [if_pos ht]
      simp [ht]
    · rw [if_neg ht]
      simp only [List.filter_cons, List.filter_nil, beq_iff_eq]
      rw [if_neg ht]
  | cons x xs ih =>
    rw [List.pairwise_cons] at h
    unfold insertTsDesc
    by_cases hx : x.ts < e.ts
    · rw [if_pos hx]
      by_cases ht : e.ts = t
      · rw [if_pos ht]
        have hnil : filterTs t (x :: xs) = [] := by
          refine filterTs_eq_nil_of_lt ?_
          intro y hy
          rcases List.mem_cons.mp hy with hy | hy
          · exact hy ▸ (ht ▸ hx)
          · exact Nat.lt_of_le_of_lt (h.1 y hy) (ht ▸ hx)
        rw [filterTs_cons, hnil]
        rw [if_pos (by simpa only [beq_iff_eq] using ht)]
        simp
      · rw [if_neg ht]
        rw [filterTs_cons]
        rw [if_neg (by simpa only [beq_iff_eq] using ht)]
        rfl
    · rw [if_neg hx]
      rw [filterTs_cons, ih h.2, filterTs_cons t x xs]
      by_cases ht : e.ts = t
      · rw [if_pos ht, if_pos ht]
        simp [List.append_assoc]
      · rw [if_neg ht, if_neg ht]

/-- Stability of `sortTsDesc`: every equal-timestamp subsequence is
exactly the one of the input. -/
lemma filterTs_sortTsDesc (t : Nat) (l : List ReflogEntry) :
    filterTs t (sortTsDesc l) = filterTs t l := by
  unfold sortTsDesc
  suffices h : ∀ acc : List ReflogEntry, acc.Pairwise tsGE →
      filterTs t (l.foldl (fun acc e => insertTsDesc e acc) acc) =
        filterTs t acc ++ filterTs t l by
    have := h [] List.Pairwise.nil
    simpa [filterTs] using this
  induction l with
  | nil => intro acc hacc; simp [filterTs]
  | cons e rest ih =>
    intro acc hacc
    simp only [List.foldl_cons]
    rw [ih (insertTsDesc e acc) (pairwise_insertTsDesc hacc)]
    rw [filterTs_insertTsDesc hacc]
    unfold filterTs
    rw [List.filter_cons]
    by_cases ht : e.ts = t
    · rw [if_pos ht, if_pos (by simpa only [beq_iff_eq] using ht)]
      simp [List.append_assoc]
    · rw [if_neg ht, if_neg (by simpa only [beq_iff_eq] using ht)]

/-- A stable insertion is a permutation of consing. -/
lemma insertTsDesc_perm (e : ReflogEntry) (l : List ReflogEntry) :
    List.Perm (insertTsDesc e l) (e :: l) := by
  induction l with
  | nil => exact List.Perm.refl _
  | cons x xs ih =>
    unfold insertTsDesc
    by_cases hx : x.ts < e.ts
    · rw [if_pos hx]
    · rw [if_neg hx]
      exact List.Perm.trans (List.Perm.cons x ih) (List.Perm.swap e x xs)

/-- `sortTsDesc` permutes its input. -/
lemma sortTsDesc_perm (l : List ReflogEntry) : List.Perm (sortTsDesc l) l := by
  unfold sortTsDesc
  suffices h : ∀ acc : List ReflogEntry,
      List.Perm (l.foldl (fun acc e => insertTsDesc e acc) acc) (acc ++ l) by
    simpa using h []
  induction l with
  | nil => intro acc; simp
  | cons e rest ih =>
    intro acc
    simp only [List.foldl_cons]
    refine List.Perm.trans (ih (insertTsDesc e acc)) ?_
    refine List.Perm.trans ((insertTsDesc_perm e acc).append_right rest) ?_
    exact List.perm_middle.symm

/-- Looking up a key in the overwrite image of a map rewrite. -/
lemma JSMap.get_map_overwrite {α : Type} (k : String) (v : α) :
    ∀ m : JSMap α,
      JSMap.get (m.map (fun p => if p.1 == k then (k, v) else p)) k =
        if m.any (fun p => p.1 == k) then some v else none := by
  intro m
  induction m with
  | nil => simp [JSMap.get]
  | cons p rest ih =>
    by_cases hp : (p.1 == k) = true
    · simp [JSMap.get, List.find?, hp]
    · rw [show (p :: rest).map (fun p => if p.1 == k then (k, v) else p) =
          p :: rest.map (fun p => if p.1 == k then (k, v) else p) from by
        rw [List.map_cons, if_neg hp]]
      rw [show ((p :: rest).any (fun p => p.1 == k)) =
          rest.any (fun p => p.1 == k) from by simp [hp]]
      rw [show JSMap.get (p ::
          rest.map (fun p => if p.1 == k then (k, v) else p)) k =
          JSMap.get (rest.map (fun p => if p.1 == k then (k, v) else p)) k from by
        simp [JSMap.get, List.find?, hp]]
      exact ih

/-- `set` then `get` of the same key. -/
lemma JSMap.get_set_self {α : Type} (m : JSMap α) (k : String) (v : α) :
    JSMap.get (m.set k v) k = some v := by
  unfold JSMap.set
  by_cases h : m.any (fun p => p.1 == k) = true
  · rw [if_pos h, JSMap.get_map_overwrite, if_pos h]
  · rw [if_neg h]
    have hnone : m.find? (fun p => p.1 == k) = none := by
      rw [List.find?_eq_none]
      intro x hx hbeq
      exact h (List.any_eq_true.mpr ⟨x, hx, hbeq⟩)
    unfold JSMap.get
    rw [List.find?_append, hnone]
    simp [List.find?]

/-- Overwriting one key in place does not disturb lookups of another. -/
lemma JSMap.get_map_overwrite_ne {α : Type} {k' k : String} (v : α)
    (hne : k' ≠ k) :
    ∀ m : JSMap α,
      JSMap.get (m.map (fun p => if p.1 == k' then (k', v) else p)) k =
        JSMap.get m k := by
  intro m
  induction m with
  | nil => simp [JSMap.get]
  | cons p rest ih =>
    by_cases hp : (p.1 == k') = true
    · have hpk : (p.1 == k) = false := by
        have hp1 : p.1 = k' := by simpa using hp
        simp [hp1, hne]
      have hkk : (k' == k) = false := by simp [hne]
      simp only [List.map_cons, hp, if_true]
      rw [show JSMap.get ((k', v) ::
          rest.map (fun p => if p.1 == k' then (k', v) else p)) k =
          JSMap.get (rest.map (fun p => if p.1 == k' then (k', v) else p)) k from by
        simp [JSMap.get, List.find?, hkk]]
      rw [show JSMap.get (p :: rest) k = JSMap.get rest k from by
        simp [JSMap.get, List.find?, hpk]]
      exact ih
    · rw [show (p :: rest).map (fun p => if p.1 == k' then (k', v) else p) =
          p :: rest.map (fun p => if p.1 == k' then (k', v) else p) from by
        rw [List.map_cons, if_neg hp]]
      by_cases hpk : (p.1 == k) = true
      · simp [JSMap.get, List.find?, hpk]
      · rw [show JSMap.get (p ::
            rest.map (fun p => if p.1 == k' then (k', v) else p)) k =
            JSMap.get (rest.map (fun p => if p.1 == k' then (k', v) else p)) k from by
          simp [JSMap.get, List.find?, hpk]]
        rw [show JSMap.get (p :: rest) k = JSMap.get rest k from by
          simp [JSMap.get, List.find?, hpk]]
        exact ih

/-- `set` leaves lookups of other keys unchanged. -/
lemma JSMap.get_set_ne {α : Type} (m : JSMap α) {k' k : String} (v : α)
    (hne : k' ≠ k) : JSMap.get (m.set k' v) k = JSMap.get m k := by
  unfold JSMap.set
  by_cases h : m.any (fun p => p.1 == k') = true
  · rw [if_pos h]
    exact JSMap.get_map_overwrite_ne v hne m
  · rw [if_neg h]
    unfold JSMap.get
    rw [List.find?_append]
    cases hm : m.find? (fun p => p.1 == k) with
    | some p => simp
    | none =>
      have hkk : (k' == k) = false := by simp [hne]
      simp [List.find?, hkk]

/-- The loose-refs fold leaves lookups alone when no processed key is
the looked-up ref name. -/
lemma parseRefsLoose_fold_ne (r : String) :
    ∀ (l : List (String × GFile)) (m : JSMap String),
      (∀ kv ∈ l, kv.1 ≠ r) →
      JSMap.get
        (l.foldl
          (fun m kv =>
            if strStartsWith kv.1 "refs/" then
              let sha := looseShaOf kv.2
              if isSha (some sha) then m.set kv.1 sha else m
            else m) m) r =
        JSMap.get m r := by
  intro l
  induction l with
  | nil => intro m _; rfl
  | cons kv t ih =>
    intro m hne
    simp only [List.foldl_cons]
    rw [ih _ (fun x hx => hne x (List.mem_cons_of_mem kv hx))]
    by_cases h1 : strStartsWith kv.1 "refs/" = true
    · rw [if_pos h1]
      by_cases h2 : isSha (some (looseShaOf kv.2)) = true
      · show JSMap.get ((if isSha (some (looseShaOf kv.2)) = true then
            m.set kv.1 (looseShaOf kv.2) else m)) r = _
        rw [if_pos h2]
        exact JSMap.get_set_ne m _ (hne kv (List.mem_cons_self kv t))
      · show JSMap.get ((if isSha (some (looseShaOf kv.2)) = true then
            m.set kv.1 (looseShaOf kv.2) else m)) r = _
        rw [if_neg h2]
    · rw [if_neg h1]

/-- After the loose-refs phase a loose `refs/**` file with a valid first
token determines its ref's table entry, whatever was written before. -/
lemma parseRefsLoose_get (files : FileIndex) (r : String) (fG : GFile)
    (hnodup : (files.byPath.map Prod.fst).Nodup)
    (hmem : (r, fG) ∈ files.byPath)
    (hpre : strStartsWith r "refs/" = true)
    (hsha : isSha (some (looseShaOf fG)) = true) :
    ∀ m : JSMap String,
      JSMap.get (parseRefsLoose files m) r = some (looseShaOf fG) := by
  intro m
  obtain ⟨s, t, hst⟩ := List.append_of_mem hmem
  have htne : ∀ kv ∈ t, kv.1 ≠ r := by
    intro kv hkv heq
    have h1 := hnodup
    rw [hst] at h1
    simp only [List.map_append, List.map_cons] at h1
    have h2 := (List.nodup_append.mp h1).2.1
    rw [List.nodup_cons] at h2
    exact h2.1 (heq ▸ List.mem_map_of_mem Prod.fst hkv)
  unfold parseRefsLoose
  rw [hst, List.foldl_append]
  simp only [List.foldl_cons]
  rw [parseRefsLoose_fold_ne r t _ htne]
  rw [show (if strStartsWith r "refs/" = true then
      (if isSha (some (looseShaOf fG)) = true then
        (s.foldl
          (fun m kv =>
            if strStartsWith kv.1 "refs/" then
              let sha := looseShaOf kv.2
              if isSha (some sha) then m.set kv.1 sha else m
            else m) m).set r (looseShaOf fG)
       else (s.foldl
          (fun m kv =>
            if strStartsWith kv.1 "refs/" then
              let sha := looseShaOf kv.2
              if isSha (some sha) then m.set kv.1 sha else m
            else m) m))
    else (s.foldl
          (fun m kv =>
            if strStartsWith kv.1 "refs/" then
              let sha := looseShaOf kv.2
              if isSha (some sha) then m.set kv.1 sha else m
            else m) m)) =
      (s.foldl
          (fun m kv =>
            if strStartsWith kv.1 "refs/" then
              let sha := looseShaOf kv.2
              if isSha (some sha) then m.set kv.1 sha else m
            else m) m).set r (looseShaOf fG) from by
    rw [if_pos hpre, if_pos hsha]]
  exact JSMap.get_set_self _ r (looseShaOf fG)

/-- The special-refs fold leaves lookups alone when the looked-up name
is none of the probed names. -/
lemma parseRefsSpecials_fold_ne (files : FileIndex) (r : String) :
    ∀ (names : List String) (m : JSMap String),
      (∀ n ∈ names, n ≠ r) →
      JSMap.get
        (names.foldl
          (fun m sp =>
            match getFile files sp with
            | none => m
            | some f =>
              let sha := looseShaOf f
              if isSha (some sha) then m.set sp sha else m) m) r =
        JSMap.get m r := by
  intro names
  induction names with
  | nil => intro m _; rfl
  | cons sp t ih =>
    intro m hne
    simp only [List.foldl_cons]
    rw [ih _ (fun x hx => hne x (List.mem_cons_of_mem sp hx))]
    cases hgf : getFile files sp with
    | none => rfl
    | some f =>
      by_cases h2 : isSha (some (looseShaOf f)) = true
      · show JSMap.get ((if isSha (some (looseShaOf f)) = true then
            m.set sp (looseShaOf f) else m)) r = _
        rw [if_pos h2]
        exact JSMap.get_set_ne m _ (hne sp (List.mem_cons_self sp t))
      · show JSMap.get ((if isSha (some (looseShaOf f)) = true then
            m.set sp (looseShaOf f) else m)) r = _
        rw [if_neg h2]

/-- No special ref name lies under `refs/`. -/
lemma specials_ne_refs {r : String} (hpre : strStartsWith r "refs/" = true) :
    ∀ n ∈ specialRefNames, n ≠ r := by
  intro n hn heq
  subst heq
  rcases (by simpa [specialRefNames] using hn :
      n = "ORIG_HEAD" ∨ n = "FETCH_HEAD" ∨ n = "MERGE_HEAD" ∨
        n = "CHERRY_PICK_HEAD" ∨ n = "REBASE_HEAD") with h | h | h | h | h <;>
    (subst h; exact absurd hpre (by decide))

/-- Soundness of the backtracking counter: a success comes from some
count in range. -/
lemma tryDesc_sound {α : Type} {lo : Nat} {k : Nat → Option α} {r : α} :
    ∀ n, tryDesc lo k n = some r → ∃ m, lo ≤ m ∧ m ≤ n ∧ k m = some r := by
  intro n
  induction n with
  | zero =>
    intro h
    unfold tryDesc at h
    by_cases hlo : lo = 0
    · rw [if_pos hlo] at h
      exact ⟨0, by omega, Nat.le_refl 0, h⟩
    · rw [if_neg hlo] at h
      exact absurd h (by simp)
  | succ n ih =>
    intro h
    unfold tryDesc at h
    by_cases hlt : n + 1 < lo
    · rw [if_pos hlt] at h
      exact absurd h (by simp)
    · rw [if_neg hlt] at h
      cases hk : k (n + 1) with
      | some r2 =>
        rw [hk] at h
        refine ⟨n + 1, Nat.le_of_not_lt hlt, Nat.le_refl _, ?_⟩
        rw [hk]
        exact h
      | none =>
        rw [hk] at h
        obtain ⟨m, h1, h2, h3⟩ := ih h
        exact ⟨m, h1, Nat.le_succ_of_le h2, h3⟩

/-- Soundness of a greedy class quantifier: a success splits the input
into a class-satisfying prefix of in-range length and a remainder fed
to the continuation. -/
lemma greedyClass_sound {α : Type} {lo hi : Nat} {p : Char → Bool}
    {l : List Char} {k : List Char → List Char → Option α} {r : α}
    (h : greedyClass lo hi p l k = some r) :
    ∃ t d, l = t ++ d ∧ t.all p = true ∧ lo ≤ t.length ∧ t.length ≤ hi ∧
      k t d = some r := by
  unfold greedyClass at h
  obtain ⟨m, h1, h2, h3⟩ := tryDesc_sound _ h
  have hm_run : m ≤ (l.takeWhile p).length :=
    Nat.le_trans h2 (Nat.min_le_right _ _)
  have hm_hi : m ≤ hi := Nat.le_trans h2 (Nat.min_le_left _ _)
  have hm_len : m ≤ l.length :=
    Nat.le_trans hm_run (List.takeWhile_sublist p).length_le
  have hlen : (l.take m).length = m := by
    rw [List.length_take]
    exact Nat.min_eq_left hm_len
  refine ⟨l.take m, l.drop m, (List.take_append_drop m l).symm, ?_, ?_, ?_, h3⟩
  · obtain ⟨t2, ht2⟩ := ( List.takeWhile_prefix p : l.takeWhile p <+: l)
    rw [← ht2, List.take_append_eq_append_take]
    rw [Nat.sub_eq_zero_of_le hm_run, List.take_zero, List.append_nil]
    refine List.all_eq_true.mpr ?_
    intro x hx
    exact List.mem_takeWhile_imp (List.mem_of_mem_take hx)
  · rw [hlen]; exact h1
  · rw [hlen]; exact hm_hi

/-- Soundness of a literal-character step. -/
lemma eatChar_sound {α : Type} {c : Char} {l : List Char}
    {k : List Char → Option α} {r : α} (h : eatChar c l k = some r) :
    ∃ rest, l = c :: rest ∧ k rest = some r := by
  unfold eatChar at h
  cases l with
  | nil => exact absurd h (by simp)
  | cons x rest =>
    dsimp only at h
    by_cases hx : x = c
    · rw [if_pos hx] at h
      exact ⟨rest, by rw [hx], h⟩
    · rw [if_neg hx] at h
      exact absurd h (by simp)

/-- Soundness of the reflog prefix matcher: a successful match
decomposes the input into the six captured fields separated by
whitespace runs and the literal angle brackets, each field having the
shape its character class prescribes, with only whitespace after the
timezone. -/
lemma reflogMatch_sound {l : List Char} {s1 s2 s3 s4 s5 s6 : String}
    (h : reflogMatch l = some (s1, s2, s3, s4, s5, s6)) :
    ∃ g1 w1 g2 w2 g3 w3 g4 w4 g5 w5 tzc tail,
      l = g1 ++ w1 ++ g2 ++ w2 ++ g3 ++ w3 ++ ('<' :: g4 ++ '>' :: w4) ++
          g5 ++ w5 ++ tzc ++ tail ∧
      s1 = String.mk g1 ∧ g1.all hexCI = true ∧ 7 ≤ g1.length ∧ g1.length ≤ 40 ∧
      s2 = String.mk g2 ∧ g2.all hexCI = true ∧ 7 ≤ g2.length ∧ g2.length ≤ 40 ∧
      s3 = String.mk g3 ∧ g3 ≠ [] ∧ g3.all dotCl = true ∧
      s4 = String.mk g4 ∧ g4 ≠ [] ∧ g4.all notGtCl = true ∧
      s5 = String.mk g5 ∧ g5 ≠ [] ∧ g5.all isDigitB = true ∧
      (∃ sgn d1 d2 d3 d4,
        s6 = String.mk [sgn, d1, d2, d3, d4] ∧ tzc = [sgn, d1, d2, d3, d4] ∧
        (sgn = '+' ∨ sgn = '-') ∧ isDigitB d1 = true ∧ isDigitB d2 = true ∧
        isDigitB d3 = true ∧ isDigitB d4 = true) ∧
      w1 ≠ [] ∧ w1.all wsCl = true ∧ w2 ≠ [] ∧ w2.all wsCl = true ∧
      w3 ≠ [] ∧ w3.all wsCl = true ∧ w4 ≠ [] ∧ w4.all wsCl = true ∧
      w5 ≠ [] ∧ w5.all wsCl = true ∧ tail.all wsCl = true := by
  unfold reflogMatch at h
  obtain ⟨g1, r1, hl, hg1all, hg1lo, hg1hi, h⟩ := greedyClass_sound h
  try dsimp only at h
  obtain ⟨w1, r2, hr1, hw1all, hw1lo, _, h⟩ := greedyClass_sound h
  try dsimp only at h
  obtain ⟨g2, r3, hr2, hg2all, hg2lo, hg2hi, h⟩ := greedyClass_sound h
  try dsimp only at h
  obtain ⟨w2, r4, hr3, hw2all, hw2lo, _, h⟩ := greedyClass_sound h
  try dsimp only at h
  obtain ⟨g3, r5, hr4, hg3all, hg3lo, _, h⟩ := greedyClass_sound h
  try dsimp only at h
  obtain ⟨w3, r6, hr5, hw3all, hw3lo, _, h⟩ := greedyClass_sound h
  try dsimp only at h
  obtain ⟨r7, hr6, h⟩ := eatChar_sound h
  try dsimp only at h
  obtain ⟨g4, r8, hr7, hg4all, hg4lo, _, h⟩ := greedyClass_sound h
  try dsimp only at h
  obtain ⟨r9, hr8, h⟩ := eatChar_sound h
  try dsimp only at h
  obtain ⟨w4, r10, hr9, hw4all, hw4lo, _, h⟩ := greedyClass_sound h
  try dsimp only at h
  obtain ⟨g5, r11, hr10, hg5all, hg5lo, _, h⟩ := greedyClass_sound h
  try dsimp only at h
  obtain ⟨w5, r12, hr11, hw5all, hw5lo, _, h⟩ := greedyClass_sound h
  try dsimp only at h
  cases r12 with
  | nil => exact absurd h (by simp)
  | cons s rest1 =>
  cases rest1 with
  | nil => exact absurd h (by simp)
  | cons d1 rest2 =>
  cases rest2 with
  | nil => exact absurd h (by simp)
  | cons d2 rest3 =>
  cases rest3 with
  | nil => exact absurd h (by simp)
  | cons d3 rest4 =>
  cases rest4 with
  | nil => exact absurd h (by simp)
  | cons d4 tail =>
  try dsimp only at h
  by_cases hc : ((s = '+' || s = '-') && isDigitB d1 && isDigitB d2 &&
      isDigitB d3 && isDigitB d4 && tail.all wsCl) = true
  · rw [if_pos hc] at h
    simp only [Bool.and_eq_true, Bool.or_eq_true, decide_eq_true_eq] at hc
    obtain ⟨⟨⟨⟨⟨hsgn, hd1⟩, hd2⟩, hd3⟩, hd4⟩, htail⟩ := hc
    simp only [Option.some.injEq, Prod.mk.injEq] at h
    obtain ⟨h1, h2, h3, h4, h5, h6⟩ := h
    refine ⟨g1, w1, g2, w2, g3, w3, g4, w4, g5, w5, [s, d1, d2, d3, d4], tail,
      ?_, h1.symm, hg1all, hg1lo, hg1hi,
      h2.symm, hg2all, hg2lo, hg2hi,
      h3.symm, List.length_pos.mp (Nat.lt_of_lt_of_le Nat.zero_lt_one hg3lo), hg3all,
      h4.symm, List.length_pos.mp (Nat.lt_of_lt_of_le Nat.zero_lt_one hg4lo), hg4all,
      h5.symm, List.length_pos.mp (Nat.lt_of_lt_of_le Nat.zero_lt_one hg5lo), hg5all,
      ⟨s, d1, d2, d3, d4, h6.symm, rfl, hsgn, hd1, hd2, hd3, hd4⟩,
      List.length_pos.mp (Nat.lt_of_lt_of_le Nat.zero_lt_one hw1lo), hw1all,
      List.length_pos.mp (Nat.lt_of_lt_of_le Nat.zero_lt_one hw2lo), hw2all,
      List.length_pos.mp (Nat.lt_of_lt_of_le Nat.zero_lt_one hw3lo), hw3all,
      List.length_pos.mp (Nat.lt_of_lt_of_le Nat.zero_lt_one hw4lo), hw4all,
      List.length_pos.mp (Nat.lt_of_lt_of_le Nat.zero_lt_one hw5lo), hw5all,
      htail⟩
    subst hr11 hr10 hr9 hr8 hr7 hr6 hr5 hr4 hr3 hr2 hr1
    rw [hl]
    simp [List.append_assoc]
  · rw [if_neg hc] at h
    exact absurd h (by simp)

/-- Trimming only removes characters. -/
lemma mem_trimChars {c : Char} {l : List Char} (h : c ∈ trimChars l) : c ∈ l := by
  unfold trimChars at h
  rw [List.mem_reverse] at h
  have h1 := (List.dropWhile_sublist wsCl).subset h
  rw [List.mem_reverse] at h1
  exact (List.dropWhile_sublist wsCl).subset h1

/-- Trimming a string free of whitespace is the identity. -/
lemma trimChars_eq_self {l : List Char} (h : ∀ c ∈ l, wsCl c = false) :
    trimChars l = l := by
  unfold trimChars
  have h1 : l.dropWhile wsCl = l := by
    cases l with
    | nil => rfl
    | cons c t =>
      rw [List.dropWhile_cons, h c (List.mem_cons_self c t)]
      simp
  rw [h1]
  have h2 : l.reverse.dropWhile wsCl = l.reverse := by
    cases hr : l.reverse with
    | nil => rfl
    | cons c t =>
      rw [List.dropWhile_cons]
      rw [h c (List.mem_reverse.mp (hr ▸ List.mem_cons_self c t))]
      simp
  rw [h2, List.reverse_reverse]

/-- A whitespace-free string accepted by `isSha` has the invariant's id
shape. -/
lemma shaShape_of_isSha {s : String} (h : isSha (some s) = true)
    (hws : ∀ c ∈ s.data, wsCl c = false) : shaShape s = true := by
  unfold isSha at h
  dsimp only at h
  rw [trimChars_eq_self hws] at h
  exact h

/-- The extracted loose-ref sha contains no whitespace. -/
lemma looseShaOf_no_ws (f : GFile) : ∀ c ∈ (looseShaOf f).data, wsCl c = false := by
  intro c hc
  unfold looseShaOf trimStr firstTokenStr at hc
  have h1 : c ∈ (String.mk ((trimStr f.content).data.takeWhile
      (fun c => !wsCl c))).data := mem_trimChars hc
  have h2 := List.mem_takeWhile_imp h1
  simpa using h2

/-- Tokens produced by the whitespace splitter contain no whitespace. -/
lemma wsTokensAux_no_ws :
    ∀ (l acc : List Char), (∀ c ∈ acc, wsCl c = false) →
      ∀ tk ∈ wsTokensAux l acc, ∀ c ∈ tk, wsCl c = false := by
  intro l
  induction l with
  | nil =>
    intro acc hacc tk htk
    unfold wsTokensAux at htk
    by_cases he : acc.isEmpty = true
    · rw [if_pos he] at htk
      exact absurd htk (by simp)
    · rw [if_neg he] at htk
      rw [List.mem_singleton] at htk
      subst htk
      intro c hc
      exact hacc c (List.mem_reverse.mp hc)
  | cons x rest ih =>
    intro acc hacc tk htk
    unfold wsTokensAux at htk
    by_cases hx : wsCl x = true
    · rw [if_pos hx] at htk
      by_cases he : acc.isEmpty = true
      · rw [if_pos he] at htk
        exact ih [] (by simp) tk htk
      · rw [if_neg he] at htk
        rcases List.mem_cons.mp htk with htk | htk
        · subst htk
          intro c hc
          exact hacc c (List.mem_reverse.mp hc)
        · exact ih [] (by simp) tk htk
    · rw [if_neg hx] at htk
      refine ih (x :: acc) ?_ tk htk
      intro c hc
      rcases List.mem_cons.mp hc with hc | hc
      · subst hc
        simpa using hx
      · exact hacc c hc

/-- Value predicates survive a `set`. -/
lemma JSMap.set_values_pred {α : Type} (P : α → Prop) {m : JSMap α}
    (hm : ∀ kv ∈ m, P kv.2) {k : String} {v : α} (hv : P v) :
    ∀ kv ∈ m.set k v, P kv.2 := by
  intro kv hkv
  unfold JSMap.set at hkv
  by_cases h : m.any (fun p => p.1 == k) = true
  · rw [if_pos h] at hkv
    obtain ⟨y, hy, hyeq⟩ := List.mem_map.mp hkv
    by_cases hyk : (y.1 == k) = true
    · rw [if_pos hyk] at hyeq
      rw [← hyeq]
      exact hv
    · rw [if_neg hyk] at hyeq
      rw [← hyeq]
      exact hm y hy
  · rw [if_neg h] at hkv
    rcases List.mem_append.mp hkv with hkv | hkv
    · exact hm kv hkv
    · rw [List.mem_singleton] at hkv
      rw [hkv]
      exact hv

/-- Value predicates survive a fold whose every step preserves them. -/
lemma foldl_values_pred {β : Type} (step : JSMap String → β → JSMap String)
    (P : String → Prop) :
    ∀ (l : List β) (m : JSMap String), (∀ kv ∈ m, P kv.2) →
      (∀ (m2 : JSMap String) (b : β), b ∈ l →
        (∀ kv ∈ m2, P kv.2) → ∀ kv ∈ step m2 b, P kv.2) →
      ∀ kv ∈ l.foldl step m, P kv.2 := by
  intro l
  induction l with
  | nil => intro m hm _ kv hkv; exact hm kv hkv
  | cons b t ih =>
    intro m hm hstep kv hkv
    simp only [List.foldl_cons] at hkv
    refine ih (step m b) ?_ ?_ kv hkv
    · exact hstep m b (List.mem_cons_self b t) hm
    · intro m2 b2 hb2 hm2
      exact hstep m2 b2 (List.mem_cons_of_mem b hb2) hm2

/-- A successful lookup returns a stored value. -/
lemma JSMap.get_mem {α : Type} {m : JSMap α} {k : String} {v : α}
    (h : JSMap.get m k = some v) : ∃ kv, kv ∈ m ∧ kv.2 = v := by
  unfold JSMap.get at h
  obtain ⟨p, hfind, hp2⟩ := Option.map_eq_some'.mp h
  exact ⟨p, List.mem_of_find?_eq_some hfind, hp2⟩

/-- Every id emitted by the packed-refs parser has the invariant's
shape. -/
lemma parsePackedRefs_shaShape {text : String} {p : String × String}
    (h : p ∈ parsePackedRefs text) : shaShape p.2 = true := by
  unfold parsePackedRefs at h
  generalize splitLines text = lines at h
  induction lines with
  | nil => exact absurd h (by simp)
  | cons line rest ih =>
    rw [List.foldr_cons] at h
    dsimp only at h
    by_cases h1 : trimStr line = ""
    · rw [if_pos h1] at h
      exact ih h
    · rw [if_neg h1] at h
      by_cases h2 : strStartsWith (trimStr line) "#" = true
      · rw [if_pos h2] at h
        exact ih h
      · rw [if_neg h2] at h
        by_cases h3 : strStartsWith (trimStr line) "^" = true
        · rw [if_pos h3] at h
          exact ih h
        · rw [if_neg h3] at h
          revert h
          cases hw : wsTokens (trimStr line).data with
          | nil => intro h; exact ih h
          | cons sha rest2 =>
            cases rest2 with
            | nil => intro h; exact ih h
            | cons ref rest3 =>
              intro h
              dsimp only at h
              by_cases h4 : (isSha (some (String.mk sha)) &&
                  decide (String.mk ref ≠ "")) = true
              · rw [if_pos h4] at h
                rcases List.mem_cons.mp h with h | h
                · have h5 : isSha (some (String.mk sha)) = true := by
                    simp only [Bool.and_eq_true] at h4
                    exact h4.1
                  have hsha_mem : sha ∈ wsTokens (trimStr line).data := by
                    rw [hw]
                    exact List.mem_cons_self sha _
                  have hnws : ∀ c ∈ sha, wsCl c = false :=
                    wsTokensAux_no_ws (trimStr line).data [] (by simp) sha hsha_mem
                  rw [h]
                  exact shaShape_of_isSha h5 (by simpa using hnws)
                · exact ih h
              · rw [if_neg h4] at h
                exact ih h

/-- Every value in the final ref table has the invariant's id shape. -/
lemma parseRefs_values (files : FileIndex) :
    ∀ kv ∈ parseRefs files, shaShape kv.2 = true := by
  unfold parseRefs
  -- packed phase
  have hpacked : ∀ kv ∈ parseRefsPacked files [], shaShape kv.2 = true := by
    unfold parseRefsPacked
    cases hgf : getFile files "packed-refs" with
    | none => simp
    | some f =>
      refine foldl_values_pred _ (fun s => shaShape s = true) _ [] (by simp) ?_
      intro m2 b hb hm2
      exact JSMap.set_values_pred (fun s => shaShape s = true) hm2
        (parsePackedRefs_shaShape hb)
  -- loose phase
  have hloose : ∀ kv ∈ parseRefsLoose files (parseRefsPacked files []),
      shaShape kv.2 = true := by
    unfold parseRefsLoose
    refine foldl_values_pred _ (fun s => shaShape s = true) _ _ hpacked ?_
    intro m2 kv _ hm2 kv2 hkv2
    by_cases h1 : strStartsWith kv.1 "refs/" = true
    · rw [if_pos h1] at hkv2
      dsimp only at hkv2
      by_cases h2 : isSha (some (looseShaOf kv.2)) = true
      · rw [if_pos h2] at hkv2
        exact JSMap.set_values_pred (fun s => shaShape s = true) hm2
          (shaShape_of_isSha h2 (looseShaOf_no_ws kv.2)) kv2 hkv2
      · rw [if_neg h2] at hkv2
        exact hm2 kv2 hkv2
    · rw [if_neg h1] at hkv2
      exact hm2 kv2 hkv2
  -- specials phase
  unfold parseRefsSpecials
  refine foldl_values_pred _ (fun s => shaShape s = true) _ _ hloose ?_
  intro m2 sp _ hm2 kv2 hkv2
  revert hkv2
  cases hgf : getFile files sp with
  | none => intro hkv2; exact hm2 kv2 hkv2
  | some f =>
    intro hkv2
    dsimp only at hkv2
    by_cases h2 : isSha (some (looseShaOf f)) = true
    · rw [if_pos h2] at hkv2
      exact JSMap.set_values_pred (fun s => shaShape s = true) hm2
        (shaShape_of_isSha h2 (looseShaOf_no_ws f)) kv2 hkv2
    · rw [if_neg h2] at hkv2
      exact hm2 kv2 hkv2

/-- Every entry produced by the reflog line loop comes from one line. -/
lemma mem_parseReflogGo {ref : String} {limit : Nat} {e : ReflogEntry} :
    ∀ (lines : List String) (count : Nat),
      e ∈ parseReflogGo ref limit lines count →
      ∃ line, parseReflogLine ref line = some e := by
  intro lines
  induction lines with
  | nil =>
    intro count h
    exact absurd h (by simp [parseReflogGo])
  | cons line rest ih =>
    intro count h
    unfold parseReflogGo at h
    by_cases h1 : line = ""
    · rw [if_pos h1] at h
      exact ih count h
    · rw [if_neg h1] at h
      revert h
      cases hp : parseReflogLine ref line with
      | none =>
        intro h
        exact ih count h
      | some e2 =>
        intro h
        dsimp only at h
        by_cases h2 : limit ≤ count + 1
        · rw [if_pos h2] at h
          rw [List.mem_singleton] at h
          subst h
          exact ⟨line, hp⟩
        · rw [if_neg h2] at h
          rcases List.mem_cons.mp h with h | h
          · subst h
            exact ⟨line, hp⟩
          · exact ih (count + 1) h

/-- Both ids of a parsed reflog entry have the invariant's shape. -/
lemma parseReflogLine_shas {ref line : String} {e : ReflogEntry}
    (h : parseReflogLine ref line = some e) :
    shaShape e.oldSha = true ∧ shaShape e.newSha = true := by
  unfold parseReflogLine at h
  dsimp only at h
  split at h
  next => exact absurd h (by simp)
  next m1 m2 m3 m4 m5 m6 heq =>
    split at h
    next =>
      obtain ⟨g1, w1, g2, w2, g3, w3, g4, w4, g5, w5, tzc, tail, _,
        h1, hg1all, hg1lo, hg1hi, h2, hg2all, hg2lo, hg2hi, _⟩ :=
        reflogMatch_sound heq
      have he := Option.some.inj h
      rw [← he]
      constructor
      · show shaShape m1 = true
        rw [h1]
        unfold shaShape
        simp only [Bool.and_eq_true, decide_eq_true_eq]
        exact ⟨⟨hg1lo, hg1hi⟩, hg1all⟩
      · show shaShape m2 = true
        rw [h2]
        unfold shaShape
        simp only [Bool.and_eq_true, decide_eq_true_eq]
        exact ⟨⟨hg2lo, hg2hi⟩, hg2all⟩
    next => exact absurd h (by simp)

/-- A detached-HEAD id has the invariant's shape. -/
lemma parseHead_detached_shaShape {files : FileIndex} {v : String}
    (h : parseHead files = some (GitHead.detached v)) : shaShape v = true := by
  unfold parseHead at h
  revert h
  cases hgf : getFile files "HEAD" with
  | none =>
    intro h
    exact absurd h (by simp)
  | some f =>
    intro h
    dsimp only at h
    revert h
    cases hm : headRefMatch (trimStr f.content) with
    | some w =>
      intro h
      dsimp only at h
      exact absurd (Option.some.inj h) (by simp)
    | none =>
      intro h
      dsimp only at h
      by_cases hs : isSha (some (trimStr (firstTokenStr (trimStr f.content)))) = true
      · rw [if_pos hs] at h
        have hv := GitHead.detached.inj (Option.some.inj h)
        rw [← hv]
        exact shaShape_of_isSha hs (looseShaOf_no_ws f)
      · rw [if_neg hs] at h
        exact absurd h (by simp)

/-- Projection of the `activeDays` field of `computeStats`. -/
lemma computeStats_activeDays (inp : StatsInput) :
    (computeStats inp).activeDays = computeActiveDays inp.commits := rfl

/-- Projection of the `avgEventsPerDay` field of `computeStats`. -/
lemma computeStats_avg (inp : StatsInput) :
    (computeStats inp).avgEventsPerDay =
      match computeActiveDays inp.commits with
      | some d =>
        if 0 < d then some (round2 ((inp.commits.length : ℚ) / (d : ℚ))) else none
      | none => none := rfl

/-- `computeActiveDays` of a non-empty event list counts the distinct
UTC day keys of the events. -/
lemma computeActiveDays_eq (commits : List ReflogEntry) (h : commits ≠ []) :
    computeActiveDays commits =
      some ((commits.map (fun e => dayKeyMs e.ts)).toFinset.card) := by
  unfold computeActiveDays
  rw [if_neg h]
  congr 1
  have hfold :
      (commits.foldl (fun days e =>
        if dayKeyMs e.ts ∈ days then days else days ++ [dayKeyMs e.ts]) []) =
      ((commits.map (fun e => dayKeyMs e.ts)).foldl
        (fun days k => if k ∈ days then days else days ++ [k]) []) := by
    rw [List.foldl_map]
  rw [hfold]
  have hnd := daysFold_nodup (commits.map (fun e => dayKeyMs e.ts)) [] (List.nodup_nil)
  have hfs := daysFold_toFinset (commits.map (fun e => dayKeyMs e.ts)) []
  rw [List.toFinset_nil, Finset.empty_union] at hfs
  rw [← List.toFinset_card_of_nodup hnd, hfs]

/- ===== Theorems ===== -/

/-- C10: `normalizeGitPath` strips at most one leading `./` and at most
one leading `.git/` per call, so it is not idempotent — on `././x` and
`.git/.git/x` a second application changes the result again.  (The
embedding is a total function on strings, matching the source's
no-throw, always-a-string contract.) -/
theorem c10_normalizeGitPath_strips_once_not_idempotent :
    normalizeGitPath "././x" = "./x" ∧
    normalizeGitPath (normalizeGitPath "././x") = "x" ∧
    normalizeGitPath (normalizeGitPath "././x") ≠ normalizeGitPath "././x" ∧
    normalizeGitPath ".git/.git/x" = ".git/x" ∧
    normalizeGitPath (normalizeGitPath ".git/.git/x") = "x" ∧
    normalizeGitPath (normalizeGitPath ".git/.git/x") ≠ normalizeGitPath ".git/.git/x" := by
  refine ⟨?_, ?_, ?_, ?_, ?_, ?_⟩ <;> decide

/-- C7: `classifyReflogMessage` is a pure total function agreeing with
the spec's clause order (literal action words, `cherry-pick`, the
`^([a-z0-9-]+)\s*:` capture, `other`/`unknown`), and produces the four
documented example classifications. -/
theorem c7_classifyReflogMessage_spec (msg : String) :
    classifyReflogMessage msg = classifySpec msg ∧
    classifyReflogMessage "checkout: moving from a to b" = "checkout" ∧
    classifyReflogMessage "custom-tool: did something" = "custom-tool" ∧
    classifyReflogMessage "" = "unknown" ∧
    classifyReflogMessage "random text" = "other" := by
  refine ⟨?_, by decide, by decide, by decide, by decide⟩
  unfold classifyReflogMessage classifySpec
  dsimp only
  generalize lowerStr (trimStr msg) = s
  apply ite_else_congr
  apply ite_else_congr
  apply ite_else_congr
  apply ite_else_congr
  apply ite_else_congr
  apply ite_else_congr
  apply ite_else_congr
  by_cases hcp :
      (strStartsWith s "cherry-pick" || strStartsWith s "cherrypick") = true
  · rw [if_pos hcp]
    by_cases ham : strStartsWith s "amend" = true
    · exfalso
      rcases Bool.or_eq_true_iff.mp hcp with h | h <;>
        rcases prefixes_comparable h ham with hh | hh <;> exact absurd hh (by decide)
    · rw [if_neg ham, if_pos hcp]
  · rw [if_neg hcp]
    by_cases ham : strStartsWith s "amend" = true
    · rw [if_pos ham, if_pos ham]
    · rw [if_neg ham, if_neg ham, if_neg hcp]

/-- C1 counterexample: with raw paths `./x` and `x` (both of size 5)
that normalize to the same key, and a declared total of 999 bytes,
the snapshot reports `totalFiles = 1` (not the input's 2 entries) and
`totalBytes = 10` (not the declared 999) — so neither field is passed
through unchanged from the input byte index. -/
theorem c1_stats_not_passed_through_counterexample :
    (analyzeGitIndex
        { byPath := [("./x", { size := 5, content := "" }),
                     ("x", { size := 5, content := "" })],
          totalBytes := 999 } "repo").stats.totalFiles = 1 ∧
    ([("./x", ({ size := 5, content := "" } : GFile)),
      ("x", { size := 5, content := "" })].length) = 2 ∧
    (analyzeGitIndex
        { byPath := [("./x", { size := 5, content := "" }),
                     ("x", { size := 5, content := "" })],
          totalBytes := 999 } "repo").stats.totalBytes = 10 ∧
    (analyzeGitIndex
        { byPath := [("./x", { size := 5, content := "" }),
                     ("x", { size := 5, content := "" })],
          totalBytes := 999 } "repo").stats.totalBytes ≠ 999 := by
  refine ⟨by decide, by decide, by decide, by decide⟩

/-- C1 amended: `stats.totalFiles` and `stats.totalBytes` are taken
from the normalized index — the number of distinct normalized keys and
the recomputed sum of the raw entries' sizes over entries whose
normalized path is non-empty — while `computeStats` itself passes the
two values through unchanged. -/
theorem c1_stats_from_normalized_index (index : FileIndex) (identity : String)
    (options : AnalyzeOptions) :
    (analyzeGitIndex index identity options).stats.totalFiles =
      (normalizeIndex index).byPath.length ∧
    (analyzeGitIndex index identity options).stats.totalBytes =
      (normalizeIndex index).totalBytes ∧
    (normalizeIndex index).totalBytes =
      ((index.byPath.filter (fun kv => normalizeGitPath kv.1 != "")).map
        (fun kv => kv.2.size)).sum ∧
    (∀ inp : StatsInput,
      (computeStats inp).totalFiles = inp.totalFiles ∧
      (computeStats inp).totalBytes = inp.totalBytes) := by
  refine ⟨rfl, rfl, ?_, fun inp => ⟨rfl, rfl⟩⟩
  show (List.foldl _ (([], 0) : JSMap GFile × Nat) index.byPath).2 = _
  rw [normalizeIndex_bytes_aux index.byPath [] 0]
  exact Nat.zero_add _

/-- C5: inside a tracked `[remote "…"]` section a `url` or `fetch` key
overwrites the fetch URL whatever its previous value (so the one seen
last in the section wins, with no merging), `pushurl` sets the push
URL, and a config file with two `[remote "origin"]` sections whose
`url` values differ yields exactly one `origin` remote carrying the
second section's value. -/
theorem c5_config_remote_last_wins :
    (∀ (r : Remote) (rs : List Remote),
      cfgStep { currentRemote := some r, remotes := rs } "url = u2" =
        { currentRemote := some { r with fetch := some "u2" }, remotes := rs } ∧
      cfgStep { currentRemote := some r, remotes := rs } "fetch = u3" =
        { currentRemote := some { r with fetch := some "u3" }, remotes := rs } ∧
      cfgStep { currentRemote := some r, remotes := rs } "pushurl = u4" =
        { currentRemote := some { r with push := some "u4" }, remotes := rs }) ∧
    parseGitConfigRemotes
        "[remote \"origin\"]\n\turl = https://first.example/a\n[remote \"origin\"]\n\turl = https://second.example/b\n" =
      [{ name := "origin", fetch := some "https://second.example/b", push := none }] := by
  refine ⟨fun r rs => ⟨rfl, rfl, rfl⟩, by decide⟩

/-- C9: two reflog entries identical except for the letter case of the
author email survive deduplication as two distinct events, yet both
increment one single author bucket (the histogram key lowercases the
email while the dedup key uses it verbatim). -/
theorem c9_dedup_email_case_sensitive_authors_case_folded
    (e1 e2 : ReflogEntry) (tf tb : Nat) (refs : JSMap String)
    (rl : JSMap (List ReflogEntry))
    (hsha : e1.newSha = e2.newSha) (hts : e1.ts = e2.ts)
    (hmsg : e1.msg = e2.msg) (hname : e1.authorName = e2.authorName)
    (hemail : e1.authorEmail ≠ e2.authorEmail)
    (hlower : lowerStr (trimStr e1.authorEmail) = lowerStr (trimStr e2.authorEmail)) :
    buildCommitList [("HEAD", [e1, e2])] = [e1, e2] ∧
    (computeStats { totalFiles := tf, totalBytes := tb, refs := refs,
                    reflogs := rl, commits := [e1, e2] }).authors =
      [(formatAuthorKey e1.authorName e1.authorEmail, 2)] := by
  have hkey : dedupKey e2 ≠ dedupKey e1 :=
    Ne.symm (dedupKey_ne_of_email_ne hsha hts hmsg hemail)
  have hkfmt : formatAuthorKey e2.authorName e2.authorEmail =
      formatAuthorKey e1.authorName e1.authorEmail := by
    unfold formatAuthorKey
    rw [← hname, ← hlower]
  constructor
  · show sortTsDesc (dedupAux ([("HEAD", [e1, e2])].map (fun p => p.2)).flatten []) = _
    have hdedup : dedupAux [e1, e2] [] = [e1, e2] := by
      simp [dedupAux, hkey]
    have hsort : sortTsDesc [e1, e2] = [e1, e2] := by
      unfold sortTsDesc
      simp [insertTsDesc, hts]
    simp only [List.map_cons, List.map_nil, List.flatten_cons, List.flatten_nil,
      List.append_nil]
    rw [hdedup, hsort]
  · show (List.foldl statsLoopStep
        ({ firstActivityTs := none, lastActivityTs := none,
           authors := [], eventTypes := [] } : StatsLoopState) [e1, e2]).authors = _
    simp only [List.foldl_cons, List.foldl_nil]
    unfold statsLoopStep
    simp only [hkfmt]
    unfold bumpCount JSMap.get JSMap.set
    simp

/-- C9 witness: the theorem at two concrete entries differing only in
the letter case of the author email. -/
theorem c9_witness :
    buildCommitList
        [("HEAD",
          [{ oldSha := "aaaaaaa", newSha := "bbbbbbb", authorName := "John",
             authorEmail := "John@X.com", ts := 1700000000000, tz := "+0000",
             msg := "commit: x", ref := "HEAD" },
           { oldSha := "aaaaaaa", newSha := "bbbbbbb", authorName := "John",
             authorEmail := "john@x.com", ts := 1700000000000, tz := "+0000",
             msg := "commit: x", ref := "HEAD" }])] =
      [{ oldSha := "aaaaaaa", newSha := "bbbbbbb", authorName := "John",
         authorEmail := "John@X.com", ts := 1700000000000, tz := "+0000",
         msg := "commit: x", ref := "HEAD" },
       { oldSha := "aaaaaaa", newSha := "bbbbbbb", authorName := "John",
         authorEmail := "john@x.com", ts := 1700000000000, tz := "+0000",
         msg := "commit: x", ref := "HEAD" }] ∧
    (computeStats
        { totalFiles := 0, totalBytes := 0, refs := [], reflogs := [],
          commits :=
            [{ oldSha := "aaaaaaa", newSha := "bbbbbbb", authorName := "John",
               authorEmail := "John@X.com", ts := 1700000000000, tz := "+0000",
               msg := "commit: x", ref := "HEAD" },
             { oldSha := "aaaaaaa", newSha := "bbbbbbb", authorName := "John",
               authorEmail := "john@x.com", ts := 1700000000000, tz := "+0000",
               msg := "commit: x", ref := "HEAD" }] }).authors =
      [(formatAuthorKey "John" "John@X.com", 2)] :=
  c9_dedup_email_case_sensitive_authors_case_folded
    { oldSha := "aaaaaaa", newSha := "bbbbbbb", authorName := "John",
      authorEmail := "John@X.com", ts := 1700000000000, tz := "+0000",
      msg := "commit: x", ref := "HEAD" }
    { oldSha := "aaaaaaa", newSha := "bbbbbbb", authorName := "John",
      authorEmail := "john@x.com", ts := 1700000000000, tz := "+0000",
      msg := "commit: x", ref := "HEAD" }
    0 0 [] [] rfl rfl rfl rfl (by decide) (by decide)

/-- C6: `activeDays` counts the distinct UTC midnight-aligned days
touched by the events and `avgEventsPerDay` is `events / activeDays`
rounded to two decimals; both are `undefined` (never zero-defaulted)
exactly when the event list is empty; 7 events across 2 distinct UTC
days average to 3.5. -/
theorem c6_activeDays_and_average (commits : List ReflogEntry) (tf tb : Nat)
    (refs : JSMap String) (rl : JSMap (List ReflogEntry)) :
    (commits = [] →
      (computeStats { totalFiles := tf, totalBytes := tb, refs := refs,
                      reflogs := rl, commits := commits }).activeDays = none ∧
      (computeStats { totalFiles := tf, totalBytes := tb, refs := refs,
                      reflogs := rl, commits := commits }).avgEventsPerDay = none) ∧
    (commits ≠ [] →
      0 < (commits.map (fun e => dayKeyMs e.ts)).toFinset.card ∧
      (computeStats { totalFiles := tf, totalBytes := tb, refs := refs,
                      reflogs := rl, commits := commits }).activeDays =
        some ((commits.map (fun e => dayKeyMs e.ts)).toFinset.card) ∧
      (computeStats { totalFiles := tf, totalBytes := tb, refs := refs,
                      reflogs := rl, commits := commits }).avgEventsPerDay =
        some (round2 ((commits.length : ℚ) /
          (((commits.map (fun e => dayKeyMs e.ts)).toFinset.card : Nat) : ℚ)))) ∧
    (computeStats
        { totalFiles := 0, totalBytes := 0, refs := [], reflogs := [],
          commits :=
            [1000, 2000, 3000, 4000, 5000, 86400001, 86400002].map
              (fun t =>
                { oldSha := "a", newSha := "b", authorName := "n",
                  authorEmail := "e", ts := t, tz := "+0000", msg := "m",
                  ref := "HEAD" }) }).avgEventsPerDay = some ((7 : ℚ) / 2) := by
  refine ⟨?_, ?_, ?_⟩
  · intro h
    subst h
    rw [computeStats_activeDays, computeStats_avg]
    constructor
    · simp [computeActiveDays]
    · simp [computeActiveDays]
  · intro h
    have hmapne : commits.map (fun e => dayKeyMs e.ts) ≠ [] := by
      simpa using h
    have hne : (commits.map (fun e => dayKeyMs e.ts)).toFinset.Nonempty := by
      obtain ⟨x, t, hx⟩ := List.exists_cons_of_ne_nil hmapne
      exact ⟨x, by simp [hx]⟩
    have hpos := Finset.card_pos.mpr hne
    refine ⟨hpos, ?_, ?_⟩
    · rw [computeStats_activeDays]
      exact computeActiveDays_eq commits h
    · rw [computeStats_avg]
      rw [computeActiveDays_eq commits h]
      dsimp only
      rw [if_pos hpos]
  · rw [computeStats_avg]
    rw [computeActiveDays_eq _ (by decide)]
    have hcard :
        ((([1000, 2000, 3000, 4000, 5000, 86400001, 86400002] : List Nat).map
            (fun t =>
              ({ oldSha := "a", newSha := "b", authorName := "n",
                 authorEmail := "e", ts := t, tz := "+0000", msg := "m",
                 ref := "HEAD" } : ReflogEntry))).map
          (fun e => dayKeyMs e.ts)).toFinset.card = 2 := by decide
    rw [hcard]
    have hlen :
        ((([1000, 2000, 3000, 4000, 5000, 86400001, 86400002] : List Nat).map
            (fun t =>
              ({ oldSha := "a", newSha := "b", authorName := "n",
                 authorEmail := "e", ts := t, tz := "+0000", msg := "m",
                 ref := "HEAD" } : ReflogEntry))).length) = 7 := by decide
    rw [hlen]
    norm_num [round2]

/-- C6 witness: the theorem at one concrete single-event list. -/
theorem c6_witness :
    0 < (([({ oldSha := "a", newSha := "b", authorName := "n",
              authorEmail := "e", ts := 1000, tz := "+0000", msg := "m",
              ref := "HEAD" } : ReflogEntry)]).map
          (fun e => dayKeyMs e.ts)).toFinset.card ∧
    (computeStats
        { totalFiles := 0, totalBytes := 0, refs := [], reflogs := [],
          commits :=
            [{ oldSha := "a", newSha := "b", authorName := "n",
               authorEmail := "e", ts := 1000, tz := "+0000", msg := "m",
               ref := "HEAD" }] }).activeDays =
      some (([({ oldSha := "a", newSha := "b", authorName := "n",
                 authorEmail := "e", ts := 1000, tz := "+0000", msg := "m",
                 ref := "HEAD" } : ReflogEntry)]).map
            (fun e => dayKeyMs e.ts)).toFinset.card ∧
    (computeStats
        { totalFiles := 0, totalBytes := 0, refs := [], reflogs := [],
          commits :=
            [{ oldSha := "a", newSha := "b", authorName := "n",
               authorEmail := "e", ts := 1000, tz := "+0000", msg := "m",
               ref := "HEAD" }] }).avgEventsPerDay =
      some (round2
        ((([{ oldSha := "a", newSha := "b", authorName := "n",
              authorEmail := "e", ts := 1000, tz := "+0000", msg := "m",
              ref := "HEAD" }] : List ReflogEntry).length : ℚ) /
          ((([({ oldSha := "a", newSha := "b", authorName := "n",
                 authorEmail := "e", ts := 1000, tz := "+0000", msg := "m",
                 ref := "HEAD" } : ReflogEntry)]).map
              (fun e => dayKeyMs e.ts)).toFinset.card : ℚ))) :=
  (c6_activeDays_and_average
      [{ oldSha := "a", newSha := "b", authorName := "n", authorEmail := "e",
         ts := 1000, tz := "+0000", msg := "m", ref := "HEAD" }]
      0 0 [] []).2.1 (by decide)

/-- C3 counterexample: the deduplication key is the joined template
string `newSha|ts|authorEmail|msg`, not the field tuple — the entry
with email `a` and message `b|c` is dropped although its tuple
`(newId, timestampMillis, authorEmail, message)` differs from the kept
entry's tuple (email `a|b`, message `c`), because the two encode to
the same joined string. -/
theorem c3_tuple_key_counterexample :
    buildCommitList
        [("HEAD",
          [{ oldSha := "abcdef1", newSha := "abcdef2", authorName := "n",
             authorEmail := "a|b", ts := 7000, tz := "+0000", msg := "c",
             ref := "HEAD" },
           { oldSha := "abcdef1", newSha := "abcdef2", authorName := "n",
             authorEmail := "a", ts := 7000, tz := "+0000", msg := "b|c",
             ref := "HEAD" }])] =
      [{ oldSha := "abcdef1", newSha := "abcdef2", authorName := "n",
         authorEmail := "a|b", ts := 7000, tz := "+0000", msg := "c",
         ref := "HEAD" }] ∧
    (("abcdef2", (7000 : Nat), "a", "b|c") ≠
      ("abcdef2", (7000 : Nat), "a|b", "c")) := by
  refine ⟨by decide, by decide⟩

/-- C3 amended: `buildCommitList` flattens the per-ref entry lists in
map order, drops a later entry exactly when its joined string key
`newSha|ts|authorEmail|msg` repeats an earlier one (first occurrence
kept — equivalently the spec's filter recursion `dedupSpec`), and
stably sorts the survivors by timestamp descending: the result is
descending, is a permutation of the deduplicated flattening, and keeps
every equal-timestamp subsequence in pre-sort order.  As a pure
function it is deterministic on identical input. -/
theorem c3_event_list_spec (reflogs : JSMap (List ReflogEntry)) :
    buildCommitList reflogs =
      sortTsDesc (dedupSpec ((reflogs.map (fun p => p.2)).flatten)) ∧
    (buildCommitList reflogs).Pairwise tsGE ∧
    List.Perm (buildCommitList reflogs)
      (dedupSpec ((reflogs.map (fun p => p.2)).flatten)) ∧
    ∀ t, filterTs t (buildCommitList reflogs) =
      filterTs t (dedupSpec ((reflogs.map (fun p => p.2)).flatten)) := by
  have hd : dedupAux ((reflogs.map (fun p => p.2)).flatten) [] =
      dedupSpec ((reflogs.map (fun p => p.2)).flatten) := by
    rw [dedupAux_eq_dedupSpec]
    congr 1
    refine List.filter_eq_self.mpr ?_
    intro a _
    simp
  refine ⟨?_, ?_, ?_, ?_⟩
  · show sortTsDesc (dedupAux ((reflogs.map (fun p => p.2)).flatten) []) = _
    rw [hd]
  · exact pairwise_sortTsDesc _
  · show List.Perm (sortTsDesc (dedupAux ((reflogs.map (fun p => p.2)).flatten) [])) _
    rw [hd]
    exact sortTsDesc_perm _
  · intro t
    show filterTs t (sortTsDesc (dedupAux ((reflogs.map (fun p => p.2)).flatten) [])) = _
    rw [hd]
    exact filterTs_sortTsDesc t _

/-- C4: when a ref name has both a packed-refs entry and a loose file
under `refs/` whose first token is a valid id, the final table maps the
name to the loose file's id (packed entries are written first, then
loose, then the specials, and later writers win for an identical key);
and the absence of `packed-refs` is not an error — the table is then
built from the loose and special phases alone. -/
theorem c4_loose_ref_overrides_packed (files : FileIndex) (r : String)
    (fG packedFile : GFile) (packedSha : String)
    (hnodup : (files.byPath.map Prod.fst).Nodup)
    (hmem : (r, fG) ∈ files.byPath)
    (hpre : strStartsWith r "refs/" = true)
    (hsha : isSha (some (looseShaOf fG)) = true)
    (_hpacked : getFile files "packed-refs" = some packedFile)
    (_hpentry : (r, packedSha) ∈ parsePackedRefs packedFile.content) :
    JSMap.get (parseRefs files) r = some (looseShaOf fG) ∧
    ∀ files2 : FileIndex, getFile files2 "packed-refs" = none →
      parseRefs files2 = parseRefsSpecials files2 (parseRefsLoose files2 []) := by
  constructor
  · unfold parseRefs parseRefsSpecials
    rw [parseRefsSpecials_fold_ne files r specialRefNames _ (specials_ne_refs hpre)]
    exact parseRefsLoose_get files r fG hnodup hmem hpre hsha _
  · intro files2 h2
    unfold parseRefs parseRefsPacked
    rw [h2]

/-- C4 witness: the theorem at a concrete index holding a packed-refs
entry and a loose file for the same ref name with different ids. -/
theorem c4_witness :
    JSMap.get
      (parseRefs
        { byPath :=
            [("packed-refs", { size := 24, content := "1111111 refs/heads/main\n" }),
             ("refs/heads/main", { size := 8, content := "2222222\n" })],
          totalBytes := 32 })
      "refs/heads/main" =
    some (looseShaOf { size := 8, content := "2222222\n" }) :=
  (c4_loose_ref_overrides_packed
    { byPath :=
        [("packed-refs", { size := 24, content := "1111111 refs/heads/main\n" }),
         ("refs/heads/main", { size := 8, content := "2222222\n" })],
      totalBytes := 32 }
    "refs/heads/main"
    { size := 8, content := "2222222\n" }
    { size := 24, content := "1111111 refs/heads/main\n" }
    "1111111"
    (by decide) (by decide) (by decide) (by decide) (by decide) (by decide)).1

set_option maxRecDepth 2048

/-- C8: every object id stored in the ref table, in a reflog entry, or
in a detached HEAD matches `^[0-9a-f]{7,40}$` case-insensitively at
creation time; candidates failing the check are discarded, so no stored
id violates the shape. -/
theorem c8_object_ids_syntactically_valid :
    (∀ (files : FileIndex) (r s : String),
      JSMap.get (parseRefs files) r = some s → shaShape s = true) ∧
    (∀ (ref text : String) (limit : Nat) (e : ReflogEntry),
      e ∈ parseReflogText ref text limit →
        shaShape e.oldSha = true ∧ shaShape e.newSha = true) ∧
    (∀ (files : FileIndex) (v : String),
      parseHead files = some (GitHead.detached v) → shaShape v = true) := by
  refine ⟨?_, ?_, ?_⟩
  · intro files r s h
    obtain ⟨kv, hmem, hkv⟩ := JSMap.get_mem h
    rw [← hkv]
    exact parseRefs_values files kv hmem
  · intro ref text limit e h
    obtain ⟨line, hline⟩ := mem_parseReflogGo (splitLines text) 0 h
    exact parseReflogLine_shas hline
  · intro files v h
    exact parseHead_detached_shaShape h

/-- C8 witness: the reflog part of the theorem at one concrete parsed
line. -/
theorem c8_witness :
    shaShape ({ oldSha := "aaaaaaa", newSha := "bbbbbbb",
                authorName := "John <nick> Doe", authorEmail := "john@x",
                ts := 1700000000000, tz := "+0100", msg := "checkout: test",
                ref := "HEAD" } : ReflogEntry).oldSha = true ∧
    shaShape ({ oldSha := "aaaaaaa", newSha := "bbbbbbb",
                authorName := "John <nick> Doe", authorEmail := "john@x",
                ts := 1700000000000, tz := "+0100", msg := "checkout: test",
                ref := "HEAD" } : ReflogEntry).newSha = true :=
  c8_object_ids_syntactically_valid.2.1 "HEAD"
    "aaaaaaa bbbbbbb John <nick> Doe <john@x> 1700000000 +0100\tcheckout: test"
    10000
    { oldSha := "aaaaaaa", newSha := "bbbbbbb",
      authorName := "John <nick> Doe", authorEmail := "john@x",
      ts := 1700000000000, tz := "+0100", msg := "checkout: test",
      ref := "HEAD" }
    (by decide)

/-- C2 counterexample: on a prefix whose author-name portion itself
contains a `<...>` group, the greedy `(.+)` makes the name run to the
last viable group — `John <nick> Doe` with email `john@x` — not stop at
the first group (`John` with email `nick`) as the claim states. -/
theorem c2_name_not_first_group_counterexample :
    (parseReflogText "HEAD"
        "aaaaaaa bbbbbbb John <nick> Doe <john@x> 1700000000 +0100\tcheckout: test"
        10000).map (fun e => (e.authorName, e.authorEmail)) =
      [("John <nick> Doe", "john@x")] ∧
    ("John <nick> Doe", "john@x") ≠ ("John", "nick") :=
  ⟨by decide, by decide⟩

/-- C2 amended: the structured prefix is tokenized into old-id, new-id,
author display name, `<email>`, decimal epoch seconds and a signed
4-digit timezone, anchored start-to-end after trimming — but the name
is matched greedily (`(.+)`), so when the name portion itself contains
a `<...>` group the name extends to the last group that leaves a
parsable `<email> epoch tz` tail, not the first. -/
theorem c2_reflog_prefix_tokenization :
    (∀ (l : List Char) (s1 s2 s3 s4 s5 s6 : String),
      reflogMatch l = some (s1, s2, s3, s4, s5, s6) →
      ∃ g1 w1 g2 w2 g3 w3 g4 w4 g5 w5 tzc tail,
        l = g1 ++ w1 ++ g2 ++ w2 ++ g3 ++ w3 ++ ('<' :: g4 ++ '>' :: w4) ++
            g5 ++ w5 ++ tzc ++ tail ∧
        s1 = String.mk g1 ∧ g1.all hexCI = true ∧ 7 ≤ g1.length ∧ g1.length ≤ 40 ∧
        s2 = String.mk g2 ∧ g2.all hexCI = true ∧ 7 ≤ g2.length ∧ g2.length ≤ 40 ∧
        s3 = String.mk g3 ∧ g3 ≠ [] ∧ g3.all dotCl = true ∧
        s4 = String.mk g4 ∧ g4 ≠ [] ∧ g4.all notGtCl = true ∧
        s5 = String.mk g5 ∧ g5 ≠ [] ∧ g5.all isDigitB = true ∧
        (∃ sgn d1 d2 d3 d4,
          s6 = String.mk [sgn, d1, d2, d3, d4] ∧ tzc = [sgn, d1, d2, d3, d4] ∧
          (sgn = '+' ∨ sgn = '-') ∧ isDigitB d1 = true ∧ isDigitB d2 = true ∧
          isDigitB d3 = true ∧ isDigitB d4 = true) ∧
        w1 ≠ [] ∧ w1.all wsCl = true ∧ w2 ≠ [] ∧ w2.all wsCl = true ∧
        w3 ≠ [] ∧ w3.all wsCl = true ∧ w4 ≠ [] ∧ w4.all wsCl = true ∧
        w5 ≠ [] ∧ w5.all wsCl = true ∧ tail.all wsCl = true) ∧
    (parseReflogText "HEAD"
        "aaaaaaa bbbbbbb John <nick> Doe <john@x> 1700000000 +0100\tcheckout: test"
        10000).map (fun e => e.authorName) = ["John <nick> Doe"] :=
  ⟨fun l s1 s2 s3 s4 s5 s6 h => reflogMatch_sound h, by decide⟩

/-- C2 witness: the tokenization soundness at one concrete prefix. -/
theorem c2_witness :
    ∃ g1 w1 g2 w2 g3 w3 g4 w4 g5 w5 tzc tail,
      "aaaaaaa bbbbbbb John <nick> Doe <john@x> 1700000000 +0100".data =
        g1 ++ w1 ++ g2 ++ w2 ++ g3 ++ w3 ++ ('<' :: g4 ++ '>' :: w4) ++
          g5 ++ w5 ++ tzc ++ tail ∧
      "aaaaaaa" = String.mk g1 ∧ g1.all hexCI = true ∧ 7 ≤ g1.length ∧ g1.length ≤ 40 ∧
      "bbbbbbb" = String.mk g2 ∧ g2.all hexCI = true ∧ 7 ≤ g2.length ∧ g2.length ≤ 40 ∧
      "John <nick> Doe" = String.mk g3 ∧ g3 ≠ [] ∧ g3.all dotCl = true ∧
      "john@x" = String.mk g4 ∧ g4 ≠ [] ∧ g4.all notGtCl = true ∧
      "1700000000" = String.mk g5 ∧ g5 ≠ [] ∧ g5.all isDigitB = true ∧
      (∃ sgn d1 d2 d3 d4,
        "+0100" = String.mk [sgn, d1, d2, d3, d4] ∧ tzc = [sgn, d1, d2, d3, d4] ∧
        (sgn = '+' ∨ sgn = '-') ∧ isDigitB d1 = true ∧ isDigitB d2 = true ∧
        isDigitB d3 = true ∧ isDigitB d4 = true) ∧
      w1 ≠ [] ∧ w1.all wsCl = true ∧ w2 ≠ [] ∧ w2.all wsCl = true ∧
      w3 ≠ [] ∧ w3.all wsCl = true ∧ w4 ≠ [] ∧ w4.all wsCl = true ∧
      w5 ≠ [] ∧ w5.all wsCl = true ∧ tail.all wsCl = true :=
  c2_reflog_prefix_tokenization.1
    "aaaaaaa bbbbbbb John <nick> Doe <john@x> 1700000000 +0100".data
    "aaaaaaa" "bbbbbbb" "John <nick> Doe" "john@x" "1700000000" "+0100"
    (by decide)

end GitScope
